import Mathlib

/-!
Shallow embedding of the drain-flow streaming log classifier
(`src/lib.rs`, `src/record/tokens.rs`, `src/record/mod.rs`,
`src/log_group/mod.rs`) together with proofs about the embedded
operations.

Modelling conventions:
* Strings are `List Char`.  The process-wide interner maps equal strings
  to equal symbols and distinct strings to distinct symbols, and every
  symbol the program manufactures resolves back to its string, so a
  symbol is modelled as the interned string itself (`Sym := List Char`)
  and `intern` is the identity.  Symbol equality then coincides with
  string equality, exactly as for `DefaultSymbol`.
* Rust `usize`/`u64` counters that can never overflow in the modelled
  paths (vector lengths, similarity counts) are `Nat`.
* `f64` payloads are modelled by their 64-bit pattern (a `Nat`), and the
  IEEE `==` used by the derived `PartialEq` is `f64Eq` below.
* Byte offsets of the Rust code are replaced by character offsets.
  UTF-8 is self-synchronising, so `str::match_indices` matches occur
  only at character boundaries and the two index spaces are order
  isomorphic; no claim depends on the numeric value of an offset.
* A Rust panic is modelled by the `Outcome.panicked` constructor (or by
  `none` for helper functions); a normal `Ok` return by `Outcome.ok`.
* `HashMap` is modelled as an association list with `mapGet`/`mapInsert`
  (lookup, insert-or-replace), matching `get`/`get_mut`/`insert`.
-/

namespace DrainFlow

/-- Interned symbol: modelled as the interned string itself (see header). -/
abbrev Sym := List Char

/-- Rust `i64` payload (overflow never matters in the modelled paths). -/
abbrev I64 := Int

/-- Result of a Rust call that either panics or returns normally.
The Rust signatures return `Result<_, Error>`, but neither
`set_threshold` nor `process_line` ever constructs an `Err`:
`BigInt::from_u64` is total on `u64`, and `process_line`'s body only
builds `Ok` values.  The only non-`Ok` outcomes are panics. -/
inductive Outcome (α : Type) where
  | panicked : Outcome α
  | ok : α → Outcome α
deriving DecidableEq, Repr

/-- Association list lookup, modelling `HashMap::get`. -/
def mapGet {α β : Type} [DecidableEq α] (m : List (α × β)) (k : α) : Option β :=
  (m.find? (fun e => decide (e.1 = k))).map (fun e => e.2)

/-- Association list insert-or-replace, modelling `HashMap::insert`. -/
def mapInsert {α β : Type} [DecidableEq α] : List (α × β) → α → β → List (α × β)
  | [], k, v => [(k, v)]
  | e :: rest, k, v => if e.1 = k then (k, v) :: rest else e :: mapInsert rest k v

/-- `Grokker` (src/record/tokens.rs): the fixed ordered enumeration of
type classes.  The declaration order matters: `from_match_index`
translates regex-set match indices back to variants by position. -/
inductive Grokker where
  | Base10Integer
  | Base10Float
  | Base16Integer
  | Base16Float
  | UUID
  | MAC
  | IPv6
  | IPv4
  | Hostname
  | Month
  | Day
deriving DecidableEq, Repr

/-- `Grokker::from_match_index`: `GROKKER_COUNT` is `11 - 1 = 10`;
indices above it yield `None`, otherwise the variant at that position
of the declaration order (`GROKKER_VARIANTS`). -/
def Grokker.from_match_index (idx : Nat) : Option Grokker :=
  if idx > 10 then none
  else [Grokker.Base10Integer, Grokker.Base10Float, Grokker.Base16Integer,
        Grokker.Base16Float, Grokker.UUID, Grokker.MAC, Grokker.IPv6,
        Grokker.IPv4, Grokker.Hostname, Grokker.Month, Grokker.Day].get? idx

/-- `TypedToken` (src/record/tokens.rs). -/
inductive TypedToken where
  | String : Sym → TypedToken
  | Int : I64 → TypedToken
  | Float : Nat → TypedToken
deriving DecidableEq, Repr

/-- Whether a 64-bit pattern denotes an IEEE-754 binary64 NaN. -/
def f64IsNaN (bits : Nat) : Bool :=
  (bits / 2 ^ 52) % 2 ^ 11 = 2047 ∧ bits % 2 ^ 52 ≠ 0

/-- Collapse `-0.0` onto `+0.0`; all other non-NaN binary64 values have
a unique bit pattern. -/
def f64Canon (bits : Nat) : Nat :=
  if bits % 2 ^ 64 = 2 ^ 63 then 0 else bits % 2 ^ 64

/-- IEEE-754 `==` on `f64` at the bit-pattern level: false whenever
either side is a NaN, and `-0.0 == +0.0`; this is the equality the
derived `PartialEq` of `TypedToken` applies to its `Float` payloads. -/
def f64Eq (a b : Nat) : Bool :=
  !f64IsNaN a && !f64IsNaN b && decide (f64Canon a = f64Canon b)

/-- The derived `PartialEq` of `TypedToken`: same-variant payload
comparison (symbol, integer, IEEE float equality), cross-variant false. -/
def TypedToken.beq : TypedToken → TypedToken → Bool
  | .String a, .String b => decide (a = b)
  | .Int a, .Int b => decide (a = b)
  | .Float a, .Float b => f64Eq a b
  | _, _ => false

/-- `Token` (src/record/tokens.rs). -/
inductive Token where
  | Wildcard
  | TypedMatch : Grokker → Token
  | Value : TypedToken → Token
deriving DecidableEq, Repr

/-- The derived `PartialEq` of `Token`: structural.  This is the
comparison applied by `calc_sim_score` and `discover_variables`
(`this == other`, `event != candidate`). -/
def Token.beq : Token → Token → Bool
  | .Wildcard, .Wildcard => true
  | .TypedMatch a, .TypedMatch b => decide (a = b)
  | .Value a, .Value b => TypedToken.beq a b
  | _, _ => false

/-- `Token::from_parse` (src/record/tokens.rs).  The regex engine is
external: `matches` stands for the index list `MATCHERS.matches(input)`
returns (`RegexSet` yields strictly increasing indices below the
pattern count).  Everything after that call is translated from source:
`match_types` filters the indices through `from_match_index`, and the
cascade arbitrates on `match_types`.  The single-match arm re-reads the
raw index list and `unwrap`s, modelled by `Outcome.panicked` when the
lookup fails. -/
def Token.from_parse (input : Sym) (matchIdxs : List Nat) : Outcome Token :=
  let match_types := matchIdxs.filterMap Grokker.from_match_index
  match match_types.length with
  | 0 => .ok (Token.Value (TypedToken.String input))
  | 1 =>
    match matchIdxs.head? with
    | none => .panicked
    | some idx =>
      match Grokker.from_match_index idx with
      | none => .panicked
      | some grokker => .ok (Token.TypedMatch grokker)
  | 2 =>
    if Grokker.UUID ∈ match_types ∧ Grokker.Hostname ∈ match_types then
      .ok (Token.TypedMatch Grokker.UUID)
    else if Grokker.Base10Integer ∈ match_types ∧ Grokker.Base16Integer ∈ match_types then
      .ok (Token.TypedMatch Grokker.Base10Integer)
    else if Grokker.Base10Float ∈ match_types ∧ Grokker.Base16Float ∈ match_types then
      .ok (Token.TypedMatch Grokker.Base10Float)
    else if Grokker.Base16Integer ∈ match_types ∧ Grokker.Hostname ∈ match_types then
      .ok (Token.TypedMatch Grokker.Base16Integer)
    else if Grokker.Base16Float ∈ match_types ∧ Grokker.Hostname ∈ match_types then
      .ok (Token.TypedMatch Grokker.Base16Float)
    else .ok Token.Wildcard
  | 3 =>
    if Grokker.Base10Integer ∈ match_types ∧ Grokker.Base16Integer ∈ match_types ∧
        Grokker.Hostname ∈ match_types then
      .ok (Token.TypedMatch Grokker.Base10Integer)
    else if Grokker.Base10Float ∈ match_types ∧ Grokker.Base16Float ∈ match_types ∧
        Grokker.Hostname ∈ match_types then
      .ok (Token.TypedMatch Grokker.Base10Float)
    else .ok Token.Wildcard
  | _ + 4 => .ok Token.Wildcard

/-- One ASCII whitespace character (`u8::is_ascii_whitespace`):
space, tab, newline, form feed, carriage return. -/
def isAsciiWs (c : Char) : Bool :=
  c == ' ' || c == '\t' || c == '\n' || c == '\x0C' || c == '\r'

/-- Fuelled worker for `str::split_ascii_whitespace`: skip whitespace,
take a maximal non-whitespace run as the next atom.  Each step consumes
at least one character, so fuel `s.length` is always sufficient; the
fuel only makes the recursion structural. -/
def splitWsGo : Nat → List Char → List (List Char)
  | 0, _ => []
  | _ + 1, [] => []
  | fuel + 1, c :: cs =>
    if isAsciiWs c then splitWsGo fuel cs
    else (c :: cs.takeWhile (fun d => !isAsciiWs d)) ::
      splitWsGo fuel (cs.dropWhile (fun d => !isAsciiWs d))

/-- `str::split_ascii_whitespace`. -/
def splitAsciiWhitespace (s : List Char) : List (List Char) :=
  splitWsGo s.length s

/-- Fuelled worker for `str::match_indices`: the left-to-right
non-overlapping scan for pattern `w` (nonempty), emitting start
positions.  After a match at `i` the scan resumes at `i + w.length`.
Fuel `s.length` is always sufficient. -/
def matchGo (w : List Char) : Nat → List Char → Nat → List Nat
  | 0, _, _ => []
  | _ + 1, [], _ => []
  | fuel + 1, c :: cs, i =>
    if w.isPrefixOf (c :: cs) then
      i :: matchGo w fuel (cs.drop (w.length - 1)) (i + w.length)
    else matchGo w fuel cs (i + 1)

/-- `str::match_indices` start positions (the empty pattern matches at
every boundary; the program only ever searches for nonempty atoms). -/
def matchIndices (w s : List Char) : List Nat :=
  if w.isEmpty then List.range (s.length + 1) else matchGo w s.length s 0

/-- `Offset` (src/record/tokens.rs); field `stop` models Rust's `end`. -/
structure Offset where
  start : Nat
  stop : Nat
deriving DecidableEq, Repr

/-- `TokenStream` (src/record/tokens.rs). -/
structure TokenStream where
  inner : List (Offset × Token)
deriving DecidableEq, Repr

/-- The `filter_map` body of `TokenStream::from_unicode_line`: for each
atom, find the first occurrence at or after `progress` among the
non-overlapping match positions; on success record the offset, advance
`progress` past it, and intern the atom (identity here); on failure the
atom is silently dropped (`?` inside `filter_map`). -/
def fromLineGo (line : List Char) : List (List Char) → Nat → List (Offset × Token)
  | [], _ => []
  | w :: ws, progress =>
    match (matchIndices w line).find? (fun i => decide (progress ≤ i)) with
    | none => fromLineGo line ws progress
    | some i =>
      (⟨i, i + w.length⟩, Token.Value (TypedToken.String w)) ::
        fromLineGo line ws (i + w.length)

/-- `TokenStream::from_unicode_line`. -/
def TokenStream.from_unicode_line (line : List Char) : TokenStream :=
  ⟨fromLineGo line (splitAsciiWhitespace line) 0⟩

/-- `TokenStream::first`: the token at index 0, if any. -/
def TokenStream.first (ts : TokenStream) : Option Token :=
  (ts.inner.get? 0).map (fun e => e.2)

/-- `TokenStream::len`. -/
def TokenStream.len (ts : TokenStream) : Nat := ts.inner.length

/-- `TokenStream::get_token_at_index`. -/
def TokenStream.get_token_at_index (ts : TokenStream) (idx : Nat) : Option Token :=
  (ts.inner.get? idx).map (fun e => e.2)

/-- Display name of a `Grokker` variant (derived `EnumDisplay`). -/
def Grokker.name : Grokker → List Char
  | .Base10Integer => "Base10Integer".toList
  | .Base10Float => "Base10Float".toList
  | .Base16Integer => "Base16Integer".toList
  | .Base16Float => "Base16Float".toList
  | .UUID => "UUID".toList
  | .MAC => "MAC".toList
  | .IPv6 => "IPv6".toList
  | .IPv4 => "IPv4".toList
  | .Hostname => "Hostname".toList
  | .Month => "Month".toList
  | .Day => "Day".toList

/-- `impl From<Token> for DefaultSymbol` (src/record/tokens.rs):
`Wildcard` interns `"*"`, a `TypedMatch` interns its display name, a
`String` value is already a symbol, and numeric values intern their
rendering.  Numeric rendering of a `Float` bit pattern is modelled as
the decimal rendering of the pattern; `from_unicode_line` only builds
`String` values, so this arm is unreachable from any record the
program constructs. -/
def tokenToSym : Token → Sym
  | .Wildcard => ['*']
  | .TypedMatch g => g.name
  | .Value (.String s) => s
  | .Value (.Int i) => (toString i).toList
  | .Value (.Float bits) => (toString bits).toList

/-- `Record` (src/record/mod.rs).  `uid` models the fresh `Ksuid`; its
value is irrelevant to every modelled operation, so record creation
takes it as a parameter instead of drawing randomness. -/
structure Record where
  uid : Nat
  inner : TokenStream
deriving DecidableEq, Repr

/-- `Record::new`. -/
def Record.new (uid : Nat) (line : List Char) : Record :=
  ⟨uid, TokenStream.from_unicode_line line⟩

/-- `Record::len`. -/
def Record.len (r : Record) : Nat := r.inner.len

/-- `Record::first`: the first token converted to its symbol. -/
def Record.first (r : Record) : Option Sym := r.inner.first.map tokenToSym

/-- The token sequence a borrowing iteration over a `Record` yields
(`RefIterator` reads `get_token_at_index 0, 1, ...`). -/
def Record.tokens (r : Record) : List Token := r.inner.inner.map (fun e => e.2)

/-- The pairwise comparison loop of `Record::calc_sim_score`: zip the
two token sequences (stopping at the shorter), count the pairs the
derived `PartialEq` declares equal. -/
def simCount : List Token → List Token → Nat
  | a :: as_, b :: bs => (if Token.beq a b then 1 else 0) + simCount as_ bs
  | _, _ => 0

/-- `Record::calc_sim_score`. -/
def Record.calc_sim_score (self candidate : Record) : Nat :=
  simCount self.tokens candidate.tokens

/-- `LogGroup` (src/log_group/mod.rs); field `vars` models the Rust
field `variables` (a `HashMap<usize, Token>`); `variables` is a
reserved word in Lean. -/
structure LogGroup where
  id : Nat
  event : Record
  examples : List Record
  vars : List (Nat × Token)
deriving DecidableEq, Repr

/-- `LogGroup::new`. -/
def LogGroup.new (event : Record) : LogGroup :=
  ⟨event.uid, event, [], []⟩

/-- The iterator chain of `LogGroup::discover_variables`: enumerate the
template's tokens, zip with the candidate's tokens (stopping at the
shorter), keep the positions that are not yet variables and where the
tokens disagree, and emit `(position, Wildcard)` for each. -/
def discoverGo (vars : List (Nat × Token)) : Nat → List Token → List Token → List (Nat × Token)
  | _, [], _ => []
  | _, _ :: _, [] => []
  | idx, e :: es, c :: cs =>
    if (mapGet vars idx).isSome then discoverGo vars (idx + 1) es cs
    else if Token.beq e c then discoverGo vars (idx + 1) es cs
    else (idx, Token.Wildcard) :: discoverGo vars (idx + 1) es cs

/-- `LogGroup::discover_variables` (the `Result` wrapper is always
`Ok`, so it is omitted). -/
def LogGroup.discover_variables (g : LogGroup) (rec : Record) : List (Nat × Token) :=
  discoverGo g.vars 0 g.event.tokens rec.tokens

/-- `LogGroup::update_variables`: for each discovered `(pos, tok)`,
insert it into `variables` and overwrite the template token at `pos`
in place (the offset is kept).  Rust's `inner[pos]` indexing panics
when `pos` is out of range, modelled by `none`. -/
def LogGroup.update_variables (g : LogGroup) : List (Nat × Token) → Option LogGroup
  | [] => some g
  | (pos, tok) :: rest =>
    if h : pos < g.event.inner.inner.length then
      let pair := g.event.inner.inner.get ⟨pos, h⟩
      LogGroup.update_variables
        { g with
          vars := mapInsert g.vars pos tok
          event := { g.event with inner := ⟨g.event.inner.inner.set pos (pair.1, tok)⟩ } }
        rest
    else none

/-- `LogGroup::add_example`: discover variables against the current
template, append the example, then update when anything was found. -/
def LogGroup.add_example (g : LogGroup) (rec : Record) : Option LogGroup :=
  let vars := g.discover_variables rec
  let g' := { g with examples := g.examples ++ [rec] }
  if vars.isEmpty then some g' else g'.update_variables vars

/-- The scoring fold of `process_line`: over the enumerated groups,
keep `(best score, index of best)`, starting from `(0, 0)` and
overwriting only on a strictly greater score. -/
def bestGo (rec : Record) : Nat → Nat × Nat → List LogGroup → Nat × Nat
  | _, acc, [] => acc
  | n, acc, g :: gs =>
    bestGo rec (n + 1)
      (if rec.calc_sim_score g.event > acc.1 then (rec.calc_sim_score g.event, n) else acc) gs

/-- `(score, offset)` as computed by the fold in `process_line`. -/
def bestOf (rec : Record) (gs : List LogGroup) : Nat × Nat :=
  bestGo rec 0 (0, 0) gs

/-- `SimpleDrain` (src/lib.rs).  `domain` keeps the caller-supplied
pattern strings (a compiled `Regex` is identified with its pattern;
the domain patterns are never consulted by the modelled operations).
`base_layer` is the two-level index length → first-symbol → groups,
and `threshold` the exact rational `Ratio<BigInt>`. -/
structure SimpleDrain where
  domain : List (List Char)
  base_layer : List (Nat × List (Sym × List LogGroup))
  threshold : ℚ
deriving DecidableEq, Repr

/-- `SimpleDrain::new` with an empty/valid domain:
`Ratio::from_float(0.5)` is `1/2`.  (Regex compilation of the supplied
domain patterns can fail in Rust; no modelled claim involves an
invalid pattern, so construction is total here.) -/
def SimpleDrain.new (domain : List (List Char)) : SimpleDrain :=
  ⟨domain, [], 1 / 2⟩

/-- `SimpleDrain::set_threshold`.  `BigInt::from_u64` is total on
`u64`, so the two `ok_or_else` error branches are dead code; the only
non-`Ok` outcome is the panic inside `Ratio::new` when the denominator
is zero (`num-rational` reduces the fraction and panics on a zero
denominator).  For a nonzero denominator the stored value is the
reduced exact rational. -/
def SimpleDrain.set_threshold (s : SimpleDrain) (numerator denominator : Nat) :
    Outcome SimpleDrain :=
  if denominator = 0 then .panicked
  else .ok { s with threshold := (numerator : ℚ) / (denominator : ℚ) }

/-- `SimpleDrain::process_line` (src/lib.rs).  Panics modelled:
`.expect("records have first tokens")` on a record with no tokens, and
the `log_groups[offset]` index (never out of range in reachable
states).  The function never constructs an `Err`, so the `Result` is
collapsed to `Outcome`. -/
def SimpleDrain.process_line (s : SimpleDrain) (uid : Nat) (line : List Char) :
    Outcome (SimpleDrain × Bool) :=
  if line.isEmpty then .ok (s, false)
  else
    let new_record := Record.new uid line
    let length := new_record.len
    match new_record.first with
    | none => .panicked
    | some first =>
      match mapGet s.base_layer length with
      | some second_layer =>
        match mapGet second_layer first with
        | some log_groups =>
          let best := bestOf new_record log_groups
          let score_ratio : ℚ := (best.1 : ℚ) / (length : ℚ)
          if score_ratio > s.threshold then
            match log_groups.get? best.2 with
            | none => .panicked
            | some g =>
              match g.add_example new_record with
              | none => .panicked
              | some g' =>
                .ok ({ s with
                  base_layer := mapInsert s.base_layer length
                    (mapInsert second_layer first (log_groups.set best.2 g')) }, false)
          else
            .ok ({ s with
              base_layer := mapInsert s.base_layer length
                (mapInsert second_layer first (log_groups ++ [LogGroup.new new_record])) }, true)
        | none =>
          .ok ({ s with
            base_layer := mapInsert s.base_layer length
              (mapInsert second_layer first [LogGroup.new new_record]) }, true)
      | none =>
        .ok ({ s with
          base_layer := mapInsert s.base_layer length
            [(first, [LogGroup.new new_record])] }, true)

/-- The group list stored in bucket `(L, K)`. -/
def bucketGet (s : SimpleDrain) (L : Nat) (K : Sym) : Option (List LogGroup) :=
  (mapGet s.base_layer L).bind (fun l2 => mapGet l2 K)

/-- Concrete group for the C5 witness: template `"a b"`. -/
def c5Group : LogGroup := LogGroup.new (Record.new 0 ['a', ' ', 'b'])

/-- Concrete example for the C5 witness: line `"a c"`. -/
def c5Example : Record := Record.new 1 ['a', ' ', 'c']

/-- The group after absorbing the C5 witness example: position 1 became
a wildcard in both `variables` and the template. -/
def c5Result : LogGroup :=
  ⟨0, ⟨0, ⟨[(⟨0, 1⟩, Token.Value (TypedToken.String ['a'])), (⟨2, 3⟩, Token.Wildcard)]⟩⟩,
    [⟨1, ⟨[(⟨0, 1⟩, Token.Value (TypedToken.String ['a'])),
      (⟨2, 3⟩, Token.Value (TypedToken.String ['c']))]⟩⟩],
    [(1, Token.Wildcard)]⟩

/-- Ghost version of `splitWsGo` that also records each atom's start
position; used only in proofs. -/
def atomsF : Nat → List Char → Nat → List (Nat × List Char)
  | 0, _, _ => []
  | _ + 1, [], _ => []
  | fuel + 1, c :: cs, i =>
    if isAsciiWs c then atomsF fuel cs (i + 1)
    else (i, c :: cs.takeWhile (fun d => !isAsciiWs d)) ::
      atomsF fuel (cs.dropWhile (fun d => !isAsciiWs d))
        (i + (c :: cs.takeWhile (fun d => !isAsciiWs d)).length)

/-- The facts about an atom list that make `from_unicode_line`'s
offset-scan succeed on every atom: positions at or beyond the bound,
nonempty whitespace-free atoms occurring at their positions, each
either at the line start or preceded by a whitespace character, and the
rest of the chain past the end of the atom. -/
def chainOK (s : List Char) : Nat → List (Nat × List Char) → Prop
  | _, [] => True
  | bound, (p, w) :: rest =>
    bound ≤ p ∧ w ≠ [] ∧ (∀ c ∈ w, isAsciiWs c = false) ∧
    List.IsPrefix w (List.drop p s) ∧
    (p = 0 ∨ ∃ c, s.get? (p - 1) = some c ∧ isAsciiWs c = true) ∧
    chainOK s (p + w.length) rest

/-- Concrete index state for the C3 witness: one bucket `(2, "a")`
holding one group whose template is `"a b"`. -/
def c3State : SimpleDrain := ⟨[], [(2, [(['a'], [c5Group])])], 1 / 2⟩

/-- The C3 witness line `"a b"`: identical to the template, score 2,
ratio `2/2 > 1/2`, so it is absorbed. -/
def c3Line : List Char := ['a', ' ', 'b']

/-- Groups for the C8 witness: templates `"a b"` and `"a d"`, inserted
in that order into the same `(2, "a")` bucket. -/
def c8GroupA : LogGroup := LogGroup.new (Record.new 0 ['a', ' ', 'b'])

/-- Second, later-inserted group for the C8 witness. -/
def c8GroupB : LogGroup := LogGroup.new (Record.new 2 ['a', ' ', 'd'])

/-- Index state for the C8 witness, with threshold 1/4 so a score of
1 out of 2 absorbs. -/
def c8State : SimpleDrain := ⟨[], [(2, [(['a'], [c8GroupA, c8GroupB])])], 1 / 4⟩

/-- The C8 witness line `"a x"`: scores 1 against both groups — a tie. -/
def c8Line : List Char := ['a', ' ', 'x']

/-- Bucket consistency: every group stored under `(L, K)` has a
template of length `L` whose first token is the concrete string token
with symbol `K` — the bucket determined at the group's creation by
`(event.len(), event.first())`. -/
def BucketInv (s : SimpleDrain) : Prop :=
  ∀ L K gs, bucketGet s L K = some gs →
    ∀ g ∈ gs, g.event.len = L ∧
      (g.event.inner.inner.get? 0).map (fun e => e.2) =
        some (Token.Value (TypedToken.String K))

/-- Empty index for the C6 witness. -/
def c6State0 : SimpleDrain := SimpleDrain.new []

/-- The index after `process_line("a")`: one bucket `(1, "a")` holding
the freshly created group. -/
def c6State1 : SimpleDrain :=
  ⟨[], [(1, [(['a'], [LogGroup.new (Record.new 0 ['a'])])])], 1 / 2⟩

theorem f64Eq_symm (a b : Nat) : f64Eq a b = f64Eq b a := by
  unfold f64Eq
  cases h1 : f64IsNaN a <;> cases h2 : f64IsNaN b <;> simp [eq_comm]

theorem typedTokenBeq_symm (a b : TypedToken) : TypedToken.beq a b = TypedToken.beq b a := by
  cases a <;> cases b <;> simp only [TypedToken.beq] <;>
    first
      | rfl
      | exact decide_eq_decide.mpr (eq_comm)
      | exact f64Eq_symm _ _

theorem tokenBeq_symm (a b : Token) : Token.beq a b = Token.beq b a := by
  cases a <;> cases b <;> simp only [Token.beq] <;>
    first
      | rfl
      | exact decide_eq_decide.mpr (eq_comm)
      | exact typedTokenBeq_symm _ _

theorem simCount_symm : ∀ xs ys, simCount xs ys = simCount ys xs
  | [], [] => rfl
  | [], _ :: _ => rfl
  | _ :: _, [] => rfl
  | x :: xs, y :: ys => by
    simp only [simCount, tokenBeq_symm x y, simCount_symm xs ys]

/-- C10: the similarity score is symmetric: positions are compared
pairwise only up to the shorter of the two records, under the
symmetric token comparison, so `calc_sim_score(A, B) =
calc_sim_score(B, A)` for all records `A` and `B`. -/
theorem calc_sim_score_symm (A B : Record) :
    A.calc_sim_score B = B.calc_sim_score A := by
  unfold Record.calc_sim_score
  exact simCount_symm _ _

/-- C2 (refuted — code bug): the equality relation `calc_sim_score` and
`discover_variables` actually apply is the derived structural
`PartialEq` of `Token`, under which `Wildcard` is equal only to
`Wildcard`: compared against a concrete `Value` (or a `TypedMatch`) it
is unequal in both directions, and a wildcard position contributes
nothing to a similarity score.  This contradicts the claimed
wildcard-reflexive relation and the code's own doc comment on
`Wildcard` ("Token that matches any other token"). -/
theorem wildcard_not_reflexive_under_derived_eq :
    Token.beq Token.Wildcard (Token.Value (TypedToken.String ['a'])) = false ∧
    Token.beq (Token.Value (TypedToken.String ['a'])) Token.Wildcard = false ∧
    Token.beq Token.Wildcard (Token.TypedMatch Grokker.UUID) = false ∧
    Record.calc_sim_score ⟨0, ⟨[(⟨0, 1⟩, Token.Wildcard)]⟩⟩
      ⟨1, ⟨[(⟨0, 1⟩, Token.Value (TypedToken.String ['a']))]⟩⟩ = 0 := by
  refine ⟨rfl, rfl, rfl, ?_⟩
  rfl

/-- C4 (refuted — code bug): `set_threshold(n, 0)` does not return a
configuration error: `BigInt::from_u64` never fails on a `u64`, so
both guarded conversions succeed and `Ratio::new(n, 0)` panics
(`denominator == 0`) instead of propagating an `Err` to the caller. -/
theorem set_threshold_zero_denominator_panics (s : SimpleDrain) (n : Nat) :
    s.set_threshold n 0 = Outcome.panicked := rfl

theorem from_match_index_isSome {i : Nat} (h : i ≤ 10) :
    ∃ g, Grokker.from_match_index i = some g := by
  interval_cases i <;> exact ⟨_, rfl⟩

theorem filterMap_valid_length (ms : List Nat) (hval : ∀ i ∈ ms, i ≤ 10) :
    (ms.filterMap Grokker.from_match_index).length = ms.length := by
  induction ms with
  | nil => rfl
  | cons i rest ih =>
    obtain ⟨g, hg⟩ := from_match_index_isSome (hval i (List.mem_cons_self _ _))
    rw [List.filterMap_cons, hg, List.length_cons,
      ih (fun j hj => hval j (List.mem_cons_of_mem _ hj)), List.length_cons]

/-- Three pairwise distinct elements cannot all live in a two-element list. -/
theorem three_mem_length_two {x y z a b : Grokker} (hxy : x ≠ y) (hxz : x ≠ z)
    (hyz : y ≠ z) (hx : x ∈ [a, b]) (hy : y ∈ [a, b]) (hz : z ∈ [a, b]) : False := by
  simp only [List.mem_cons, List.not_mem_nil, or_false] at hx hy hz
  rcases hx with rfl | rfl <;> rcases hy with rfl | rfl <;> rcases hz with rfl | rfl <;>
    simp_all

/-- Four pairwise distinct elements cannot all live in a three-element list. -/
theorem four_mem_length_three {w x y z a b c : Grokker} (hwx : w ≠ x) (hwy : w ≠ y)
    (hwz : w ≠ z) (hxy : x ≠ y) (hxz : x ≠ z) (hyz : y ≠ z)
    (hw : w ∈ [a, b, c]) (hx : x ∈ [a, b, c]) (hy : y ∈ [a, b, c])
    (hz : z ∈ [a, b, c]) : False := by
  simp only [List.mem_cons, List.not_mem_nil, or_false] at hw hx hy hz
  rcases hw with rfl | rfl | rfl <;> rcases hx with rfl | rfl | rfl <;>
    rcases hy with rfl | rfl | rfl <;> rcases hz with rfl | rfl | rfl <;> simp_all

theorem length_ge_four {α : Type} {l : List α} (h : 4 ≤ l.length) :
    ∃ a b c d rest, l = a :: b :: c :: d :: rest := by
  match l, h with
  | a :: b :: c :: d :: rest, _ => exact ⟨a, b, c, d, rest, rfl⟩
  | [], h => simp at h
  | [_], h => simp at h
  | [_, _], h => simp at h
  | [_, _, _], h => simp at h

/-- Reduction of `Token.from_parse` when exactly three grokkers match. -/
theorem from_parse_three (input : Sym) (ms : List Nat) (a b c : Grokker)
    (h : ms.filterMap Grokker.from_match_index = [a, b, c]) :
    Token.from_parse input ms =
      (if Grokker.Base10Integer ∈ [a, b, c] ∧ Grokker.Base16Integer ∈ [a, b, c] ∧
          Grokker.Hostname ∈ [a, b, c] then
        Outcome.ok (Token.TypedMatch Grokker.Base10Integer)
      else if Grokker.Base10Float ∈ [a, b, c] ∧ Grokker.Base16Float ∈ [a, b, c] ∧
          Grokker.Hostname ∈ [a, b, c] then
        Outcome.ok (Token.TypedMatch Grokker.Base10Float)
      else Outcome.ok Token.Wildcard) := by
  unfold Token.from_parse
  rw [h]
  rfl

/-- C7: `Token::from_parse` implements the arbitration cascade on the
set of matching grokker patterns.  `ms` is the (valid-index) list the
regex set reports and `mt` the corresponding grokker list: 0 matches
give the interned string value; 1 match its variant; 2 matches follow
the five special pairs and otherwise give `Wildcard`; 3 matches follow
the two special triples and otherwise give `Wildcard`; 4 or more
matches give `Wildcard`. -/
theorem from_parse_cascade (input : Sym) (ms : List Nat) (mt : List Grokker)
    (hval : ∀ i ∈ ms, i ≤ 10)
    (hmt : mt = ms.filterMap Grokker.from_match_index) :
    (mt = [] → Token.from_parse input ms = .ok (.Value (.String input))) ∧
    (∀ g, mt = [g] → Token.from_parse input ms = .ok (.TypedMatch g)) ∧
    (mt.length = 2 →
      (Grokker.UUID ∈ mt ∧ Grokker.Hostname ∈ mt →
        Token.from_parse input ms = .ok (.TypedMatch .UUID)) ∧
      (Grokker.Base10Integer ∈ mt ∧ Grokker.Base16Integer ∈ mt →
        Token.from_parse input ms = .ok (.TypedMatch .Base10Integer)) ∧
      (Grokker.Base10Float ∈ mt ∧ Grokker.Base16Float ∈ mt →
        Token.from_parse input ms = .ok (.TypedMatch .Base10Float)) ∧
      (Grokker.Base16Integer ∈ mt ∧ Grokker.Hostname ∈ mt →
        Token.from_parse input ms = .ok (.TypedMatch .Base16Integer)) ∧
      (Grokker.Base16Float ∈ mt ∧ Grokker.Hostname ∈ mt →
        Token.from_parse input ms = .ok (.TypedMatch .Base16Float)) ∧
      (¬(Grokker.UUID ∈ mt ∧ Grokker.Hostname ∈ mt) →
        ¬(Grokker.Base10Integer ∈ mt ∧ Grokker.Base16Integer ∈ mt) →
        ¬(Grokker.Base10Float ∈ mt ∧ Grokker.Base16Float ∈ mt) →
        ¬(Grokker.Base16Integer ∈ mt ∧ Grokker.Hostname ∈ mt) →
        ¬(Grokker.Base16Float ∈ mt ∧ Grokker.Hostname ∈ mt) →
        Token.from_parse input ms = .ok .Wildcard)) ∧
    (mt.length = 3 →
      (Grokker.Base10Integer ∈ mt ∧ Grokker.Base16Integer ∈ mt ∧ Grokker.Hostname ∈ mt →
        Token.from_parse input ms = .ok (.TypedMatch .Base10Integer)) ∧
      (Grokker.Base10Float ∈ mt ∧ Grokker.Base16Float ∈ mt ∧ Grokker.Hostname ∈ mt →
        Token.from_parse input ms = .ok (.TypedMatch .Base10Float)) ∧
      (¬(Grokker.Base10Integer ∈ mt ∧ Grokker.Base16Integer ∈ mt ∧ Grokker.Hostname ∈ mt) →
        ¬(Grokker.Base10Float ∈ mt ∧ Grokker.Base16Float ∈ mt ∧ Grokker.Hostname ∈ mt) →
        Token.from_parse input ms = .ok .Wildcard)) ∧
    (4 ≤ mt.length → Token.from_parse input ms = .ok .Wildcard) := by
  subst hmt
  refine ⟨?_, ?_, ?_, ?_, ?_⟩
  · intro h0
    unfold Token.from_parse
    rw [h0]
    rfl
  · intro g hg
    cases ms with
    | nil => simp at hg
    | cons i rest =>
      obtain ⟨g0, hg0⟩ := from_match_index_isSome (hval i (List.mem_cons_self _ _))
      rw [List.filterMap_cons, hg0] at hg
      obtain ⟨rfl, hrest⟩ : g0 = g ∧ rest.filterMap Grokker.from_match_index = [] := by
        simpa using hg
      have hlen0 : rest.length = 0 := by
        rw [← filterMap_valid_length rest (fun j hj => hval j (List.mem_cons_of_mem _ hj)),
          hrest]
        rfl
      obtain rfl : rest = [] := List.length_eq_zero.mp hlen0
      unfold Token.from_parse
      rw [List.filterMap_cons, hg0, List.filterMap_nil]
      simp [hg0]
  · intro hlen2
    obtain ⟨a, b, hab⟩ := List.length_eq_two.mp hlen2
    refine ⟨?_, ?_, ?_, ?_, ?_, ?_⟩
    · rintro ⟨hu, hh⟩
      rw [hab] at hu hh
      unfold Token.from_parse
      rw [hab]
      dsimp only
      rw [if_pos ⟨hu, hh⟩]
      rfl
    · rintro ⟨h10, h16⟩
      rw [hab] at h10 h16
      have hn1 : ¬(Grokker.UUID ∈ [a, b] ∧ Grokker.Hostname ∈ [a, b]) :=
        fun ⟨hu, hh⟩ =>
          three_mem_length_two (by decide) (by decide) (by decide) hu hh h10
      unfold Token.from_parse
      rw [hab]
      dsimp only
      rw [if_neg hn1, if_pos ⟨h10, h16⟩]
      rfl
    · rintro ⟨h10, h16⟩
      rw [hab] at h10 h16
      have hn1 : ¬(Grokker.UUID ∈ [a, b] ∧ Grokker.Hostname ∈ [a, b]) :=
        fun ⟨hu, hh⟩ =>
          three_mem_length_two (by decide) (by decide) (by decide) hu hh h10
      have hn2 : ¬(Grokker.Base10Integer ∈ [a, b] ∧ Grokker.Base16Integer ∈ [a, b]) :=
        fun ⟨hi, hj⟩ =>
          three_mem_length_two (by decide) (by decide) (by decide) hi hj h10
      unfold Token.from_parse
      rw [hab]
      dsimp only
      rw [if_neg hn1, if_neg hn2, if_pos ⟨h10, h16⟩]
      rfl
    · rintro ⟨h16, hh⟩
      rw [hab] at h16 hh
      have hn1 : ¬(Grokker.UUID ∈ [a, b] ∧ Grokker.Hostname ∈ [a, b]) :=
        fun ⟨hu, _⟩ =>
          three_mem_length_two (by decide) (by decide) (by decide) hu hh h16
      have hn2 : ¬(Grokker.Base10Integer ∈ [a, b] ∧ Grokker.Base16Integer ∈ [a, b]) :=
        fun ⟨hi, hj⟩ =>
          three_mem_length_two (by decide) (by decide) (by decide) hi hj hh
      have hn3 : ¬(Grokker.Base10Float ∈ [a, b] ∧ Grokker.Base16Float ∈ [a, b]) :=
        fun ⟨hi, hj⟩ =>
          three_mem_length_two (by decide) (by decide) (by decide) hi hj hh
      unfold Token.from_parse
      rw [hab]
      dsimp only
      rw [if_neg hn1, if_neg hn2, if_neg hn3, if_pos ⟨h16, hh⟩]
      rfl
    · rintro ⟨h16, hh⟩
      rw [hab] at h16 hh
      have hn1 : ¬(Grokker.UUID ∈ [a, b] ∧ Grokker.Hostname ∈ [a, b]) :=
        fun ⟨hu, _⟩ =>
          three_mem_length_two (by decide) (by decide) (by decide) hu hh h16
      have hn2 : ¬(Grokker.Base10Integer ∈ [a, b] ∧ Grokker.Base16Integer ∈ [a, b]) :=
        fun ⟨hi, hj⟩ =>
          three_mem_length_two (by decide) (by decide) (by decide) hi hj hh
      have hn3 : ¬(Grokker.Base10Float ∈ [a, b] ∧ Grokker.Base16Float ∈ [a, b]) :=
        fun ⟨hi, hj⟩ =>
          three_mem_length_two (by decide) (by decide) (by decide) hi hj hh
      have hn4 : ¬(Grokker.Base16Integer ∈ [a, b] ∧ Grokker.Hostname ∈ [a, b]) :=
        fun ⟨hi, _⟩ =>
          three_mem_length_two (by decide) (by decide) (by decide) hi hh h16
      unfold Token.from_parse
      rw [hab]
      dsimp only
      rw [if_neg hn1, if_neg hn2, if_neg hn3, if_neg hn4, if_pos ⟨h16, hh⟩]
      rfl
    · intro hn1 hn2 hn3 hn4 hn5
      rw [hab] at hn1 hn2 hn3 hn4 hn5
      unfold Token.from_parse
      rw [hab]
      dsimp only
      rw [if_neg hn1, if_neg hn2, if_neg hn3, if_neg hn4, if_neg hn5]
      rfl
  · intro hlen3
    obtain ⟨a, b, c, habc⟩ := List.length_eq_three.mp hlen3
    refine ⟨?_, ?_, ?_⟩
    · rintro ⟨h10, h16, hh⟩
      rw [habc] at h10 h16 hh
      rw [from_parse_three input ms a b c habc, if_pos ⟨h10, h16, hh⟩]
    · rintro ⟨h10, h16, hh⟩
      rw [habc] at h10 h16 hh
      have hn1 : ¬(Grokker.Base10Integer ∈ [a, b, c] ∧ Grokker.Base16Integer ∈ [a, b, c] ∧
          Grokker.Hostname ∈ [a, b, c]) :=
        fun ⟨hi, hj, _⟩ =>
          four_mem_length_three (by decide) (by decide) (by decide) (by decide)
            (by decide) (by decide) hi hj h10 h16
      rw [from_parse_three input ms a b c habc, if_neg hn1, if_pos ⟨h10, h16, hh⟩]
    · intro hn1 hn2
      rw [habc] at hn1 hn2
      rw [from_parse_three input ms a b c habc, if_neg hn1, if_neg hn2]
  · intro h4
    obtain ⟨a, b, c, d, rest, habcd⟩ := length_ge_four h4
    unfold Token.from_parse
    rw [habcd]
    rfl

theorem mapGet_insert_self {α β : Type} [DecidableEq α] (m : List (α × β)) (k : α) (v : β) :
    mapGet (mapInsert m k v) k = some v := by
  induction m with
  | nil => simp [mapGet, mapInsert]
  | cons e rest ih =>
    by_cases h : e.1 = k
    · simp [mapGet, mapInsert, h]
    · simpa [mapGet, mapInsert, h, List.find?_cons, h] using ih

theorem mapGet_insert_ne {α β : Type} [DecidableEq α] (m : List (α × β)) (k : α) (v : β)
    (k' : α) (h : k' ≠ k) : mapGet (mapInsert m k v) k' = mapGet m k' := by
  have hne : ¬(k = k') := fun a => h a.symm
  induction m with
  | nil => simp [mapGet, mapInsert, hne]
  | cons e rest ih =>
    by_cases he : e.1 = k
    · subst he
      simp [mapGet, mapInsert, List.find?_cons, hne]
    · by_cases he' : e.1 = k'
      · simp [mapGet, mapInsert, List.find?_cons, he, he', h]
      · simp only [mapGet, mapInsert, if_neg he] at *
        simp [List.find?_cons, he', ih]

/-- Invariants of the scoring fold: the accumulator's score never
decreases, the result dominates every group's score, and the result is
either the initial accumulator or the score of the first group
attaining the final best, with its enumerated index. -/
theorem bestGo_spec (rec : Record) :
    ∀ (l : List LogGroup) (n : Nat) (acc : Nat × Nat),
      acc.1 ≤ (bestGo rec n acc l).1 ∧
      (∀ j gj, l.get? j = some gj →
        rec.calc_sim_score gj.event ≤ (bestGo rec n acc l).1) ∧
      (bestGo rec n acc l = acc ∨
        ∃ j gj, l.get? j = some gj ∧
          (bestGo rec n acc l).2 = n + j ∧
          (bestGo rec n acc l).1 = rec.calc_sim_score gj.event ∧
          acc.1 < (bestGo rec n acc l).1 ∧
          ∀ k gk, k < j → l.get? k = some gk →
            rec.calc_sim_score gk.event < (bestGo rec n acc l).1)
  | [], n, acc => by
    refine ⟨le_refl _, ?_, Or.inl rfl⟩
    intro j gj hj
    simp at hj
  | g :: gs, n, acc => by
    have hstep : bestGo rec n acc (g :: gs) =
        bestGo rec (n + 1)
          (if rec.calc_sim_score g.event > acc.1
            then (rec.calc_sim_score g.event, n) else acc) gs := rfl
    set s := rec.calc_sim_score g.event with hs
    set acc' := if s > acc.1 then (s, n) else acc with hacc'
    have hacc1 : acc.1 ≤ acc'.1 := by
      rw [hacc']
      split
      · exact le_of_lt (by assumption)
      · exact le_refl _
    have hsle : s ≤ acc'.1 := by
      rw [hacc']
      split
      · exact le_refl _
      · omega
    obtain ⟨ih1, ih2, ih3⟩ := bestGo_spec rec gs (n + 1) acc'
    rw [hstep]
    refine ⟨le_trans hacc1 ih1, ?_, ?_⟩
    · intro j gj hj
      cases j with
      | zero =>
        simp only [List.get?_cons_zero, Option.some.injEq] at hj
        subst hj
        exact le_trans hsle ih1
      | succ k =>
        simp only [List.get?_cons_succ] at hj
        exact ih2 k gj hj
    · rcases ih3 with heq | ⟨j, gj, hget, hidx, hval1, hlt, hall⟩
      · rw [heq, hacc']
        split
        · refine Or.inr ⟨0, g, rfl, by omega, rfl, by assumption, ?_⟩
          intro k gk hk
          omega
        · exact Or.inl rfl
      · refine Or.inr ⟨j + 1, gj, by simpa using hget, by omega, hval1,
          lt_of_le_of_lt hacc1 hlt, ?_⟩
        intro k gk hk hgetk
        cases k with
        | zero =>
          simp only [List.get?_cons_zero, Option.some.injEq] at hgetk
          subst hgetk
          exact lt_of_le_of_lt hsle hlt
        | succ k' =>
          simp only [List.get?_cons_succ] at hgetk
          exact hall k' gk (by omega) hgetk

/-- When the winning score is positive, the fold's index points at the
first group attaining it. -/
theorem bestOf_pos_spec (rec : Record) (gs : List LogGroup)
    (h : 0 < (bestOf rec gs).1) :
    ∃ gj, gs.get? (bestOf rec gs).2 = some gj ∧
      (bestOf rec gs).1 = rec.calc_sim_score gj.event ∧
      (∀ j g', gs.get? j = some g' →
        rec.calc_sim_score g'.event ≤ (bestOf rec gs).1) ∧
      ∀ k gk, k < (bestOf rec gs).2 → gs.get? k = some gk →
        rec.calc_sim_score gk.event < (bestOf rec gs).1 := by
  rw [show bestOf rec gs = bestGo rec 0 (0, 0) gs from rfl] at h ⊢
  obtain ⟨_, hle, hcase⟩ := bestGo_spec rec gs 0 (0, 0)
  rcases hcase with heq | ⟨j, gj, hget, hidx, hval1, _, hall⟩
  · rw [heq] at h
    omega
  · refine ⟨gj, ?_, hval1, hle, ?_⟩
    · rw [hidx, Nat.zero_add]
      exact hget
    · intro k gk hk hgetk
      exact hall k gk (by omega) hgetk

/-- Witness for C7 at a concrete input: match indices `{2, 8}`
(`Base16Integer`, `Hostname`) arbitrate to `Base16Integer`. -/
theorem from_parse_cascade_witness :
    (∀ i ∈ ([2, 8] : List Nat), i ≤ 10) ∧
    ([Grokker.Base16Integer, Grokker.Hostname] =
      ([2, 8] : List Nat).filterMap Grokker.from_match_index) ∧
    Token.from_parse ['x'] [2, 8] = .ok (.TypedMatch .Base16Integer) :=
  ⟨by decide, by decide,
    (((from_parse_cascade ['x'] [2, 8] [Grokker.Base16Integer, Grokker.Hostname]
      (by decide) (by decide)).2.2.1 (by decide)).2.2.2.1) ⟨by decide, by decide⟩⟩

theorem discoverGo_mem (vars : List (Nat × Token)) :
    ∀ (idx : Nat) (es cs : List Token) (p : Nat) (t : Token),
      (p, t) ∈ discoverGo vars idx es cs →
      t = Token.Wildcard ∧ idx ≤ p ∧ mapGet vars p = none ∧
      ∃ e c, es.get? (p - idx) = some e ∧ cs.get? (p - idx) = some c ∧
        Token.beq e c = false
  | idx, [], cs, p, t => by intro h; simp [discoverGo] at h
  | idx, e :: es, [], p, t => by intro h; simp [discoverGo] at h
  | idx, e :: es, c :: cs, p, t => by
    intro h
    unfold discoverGo at h
    by_cases h1 : (mapGet vars idx).isSome = true
    · rw [if_pos h1] at h
      obtain ⟨ht, hle, hnone, e', c', he, hc, hbeq⟩ :=
        discoverGo_mem vars (idx + 1) es cs p t h
      have hp : p - idx = (p - (idx + 1)) + 1 := by omega
      exact ⟨ht, by omega, hnone, e', c',
        by rw [hp, List.get?_cons_succ]; exact he,
        by rw [hp, List.get?_cons_succ]; exact hc, hbeq⟩
    · rw [if_neg h1] at h
      by_cases h2 : Token.beq e c = true
      · rw [if_pos h2] at h
        obtain ⟨ht, hle, hnone, e', c', he, hc, hbeq⟩ :=
          discoverGo_mem vars (idx + 1) es cs p t h
        have hp : p - idx = (p - (idx + 1)) + 1 := by omega
        exact ⟨ht, by omega, hnone, e', c',
          by rw [hp, List.get?_cons_succ]; exact he,
          by rw [hp, List.get?_cons_succ]; exact hc, hbeq⟩
      · rw [if_neg h2] at h
        rcases List.mem_cons.mp h with heq | hmem
        · obtain ⟨rfl, rfl⟩ := Prod.mk.injEq .. |>.mp heq
          refine ⟨rfl, le_refl _, Option.not_isSome_iff_eq_none.mp h1, e, c, ?_, ?_, ?_⟩
          · simp [Nat.sub_self]
          · simp [Nat.sub_self]
          · cases hb : Token.beq e c
            · rfl
            · exact absurd hb h2
        · obtain ⟨ht, hle, hnone, e', c', he, hc, hbeq⟩ :=
            discoverGo_mem vars (idx + 1) es cs p t hmem
          have hp : p - idx = (p - (idx + 1)) + 1 := by omega
          exact ⟨ht, by omega, hnone, e', c',
            by rw [hp, List.get?_cons_succ]; exact he,
            by rw [hp, List.get?_cons_succ]; exact hc, hbeq⟩

theorem discoverGo_keys_lt (vars : List (Nat × Token)) :
    ∀ (idx : Nat) (es cs : List Token),
      List.Pairwise (fun x y => x.1 < y.1) (discoverGo vars idx es cs)
  | _, [], _ => by simp [discoverGo]
  | _, _ :: _, [] => by simp [discoverGo]
  | idx, e :: es, c :: cs => by
    unfold discoverGo
    by_cases h1 : (mapGet vars idx).isSome = true
    · rw [if_pos h1]
      exact discoverGo_keys_lt vars (idx + 1) es cs
    · rw [if_neg h1]
      by_cases h2 : Token.beq e c = true
      · rw [if_pos h2]
        exact discoverGo_keys_lt vars (idx + 1) es cs
      · rw [if_neg h2]
        refine List.Pairwise.cons ?_ (discoverGo_keys_lt vars (idx + 1) es cs)
        intro y hy
        have hmem : (y.1, y.2) ∈ discoverGo vars (idx + 1) es cs := by
          simpa using hy
        have := (discoverGo_mem vars (idx + 1) es cs y.1 y.2 hmem).2.1
        omega

theorem update_variables_facts :
    ∀ (vs : List (Nat × Token)) (g g' : LogGroup),
      g.update_variables vs = some g' →
      g'.id = g.id ∧ g'.examples = g.examples ∧ g'.event.uid = g.event.uid ∧
      g'.event.inner.inner.length = g.event.inner.inner.length ∧
      (∀ p, p ∉ vs.map Prod.fst →
        mapGet g'.vars p = mapGet g.vars p ∧
        g'.event.inner.inner.get? p = g.event.inner.inner.get? p)
  | [], g, g' => by
    intro h
    obtain rfl : g = g' := by simpa [LogGroup.update_variables] using h
    exact ⟨rfl, rfl, rfl, rfl, fun p _ => ⟨rfl, rfl⟩⟩
  | (pos, tok) :: rest, g, g' => by
    intro h
    unfold LogGroup.update_variables at h
    split at h
    case isTrue hlt =>
      obtain ⟨hid, hex, huid, hlen, hrest⟩ := update_variables_facts rest _ g' h
      simp only [List.length_set] at hlen
      refine ⟨hid, hex, huid, hlen, ?_⟩
      intro p hp
      simp only [List.map_cons, List.mem_cons, not_or] at hp
      obtain ⟨hpne, hprest⟩ := hp
      obtain ⟨hv, hg⟩ := hrest p hprest
      constructor
      · rw [hv]
        exact mapGet_insert_ne _ _ _ _ hpne
      · rw [hg]
        exact List.get?_set_ne _ _ (fun a => hpne a.symm)
    case isFalse => exact absurd h (by simp)

theorem update_variables_applied :
    ∀ (vs : List (Nat × Token)) (g g' : LogGroup),
      List.Pairwise (fun x y => x.1 < y.1) vs →
      g.update_variables vs = some g' →
      ∀ p t, (p, t) ∈ vs →
        mapGet g'.vars p = some t ∧
        (g'.event.inner.inner.get? p).map (fun e => e.2) = some t
  | [], g, g' => by
    intro _ _ p t hmem
    simp at hmem
  | (pos, tok) :: rest, g, g' => by
    intro hpw h p t hmem
    unfold LogGroup.update_variables at h
    split at h
    case isFalse => exact absurd h (by simp)
    case isTrue hlt =>
      rcases List.mem_cons.mp hmem with heq | hmemrest
      · obtain ⟨rfl, rfl⟩ := Prod.mk.injEq .. |>.mp heq
        have hnotin : p ∉ rest.map Prod.fst := by
          intro hin
          obtain ⟨y, hy, hy1⟩ := List.mem_map.mp hin
          have := (List.pairwise_cons.mp hpw).1 y hy
          omega
        obtain ⟨_, _, _, _, huntouched⟩ := update_variables_facts rest _ g' h
        obtain ⟨hv, hg⟩ := huntouched p hnotin
        constructor
        · rw [hv]
          simp [mapGet_insert_self]
        · rw [hg]
          dsimp only
          rw [List.get?_set_eq_of_lt _ hlt]
          rfl
      · exact update_variables_applied rest _ g' (List.pairwise_cons.mp hpw).2 h p t hmemrest

theorem update_variables_isSome :
    ∀ (vs : List (Nat × Token)) (g : LogGroup),
      (∀ p t, (p, t) ∈ vs → p < g.event.inner.inner.length) →
      ∃ g', g.update_variables vs = some g'
  | [], g => fun _ => ⟨g, rfl⟩
  | (pos, tok) :: rest, g => by
    intro hbound
    have hlt : pos < g.event.inner.inner.length :=
      hbound pos tok (List.mem_cons_self _ _)
    obtain ⟨g', hg'⟩ := update_variables_isSome rest
      { g with
        vars := mapInsert g.vars pos tok
        event := { g.event with
          inner := ⟨g.event.inner.inner.set pos
            ((g.event.inner.inner.get ⟨pos, hlt⟩).1, tok)⟩ } }
      (by
        intro p t hmem
        simpa [List.length_set] using hbound p t (List.mem_cons_of_mem _ hmem))
    refine ⟨g', ?_⟩
    unfold LogGroup.update_variables
    rw [dif_pos hlt]
    exact hg'

theorem discover_variables_bounds (g : LogGroup) (rec : Record) (p : Nat) (t : Token)
    (h : (p, t) ∈ g.discover_variables rec) :
    p < g.event.inner.inner.length ∧ mapGet g.vars p = none ∧ t = Token.Wildcard := by
  obtain ⟨ht, _, hnone, e, c, he, _, _⟩ :=
    discoverGo_mem g.vars 0 g.event.tokens rec.tokens p t h
  refine ⟨?_, hnone, ht⟩
  have : p - 0 < g.event.tokens.length := List.get?_eq_some.mp he |>.1
  simpa [Record.tokens] using this

theorem add_example_isSome (g : LogGroup) (rec : Record) :
    ∃ g', g.add_example rec = some g' := by
  unfold LogGroup.add_example
  by_cases hemp : (g.discover_variables rec).isEmpty = true
  · rw [if_pos hemp]
    exact ⟨_, rfl⟩
  · rw [if_neg hemp]
    exact update_variables_isSome _ _
      (fun p t hmem => (discover_variables_bounds g rec p t hmem).1)

theorem add_example_facts (g : LogGroup) (rec : Record) (g' : LogGroup)
    (h : g.add_example rec = some g') :
    g'.id = g.id ∧ g'.event.uid = g.event.uid ∧
    g'.event.inner.inner.length = g.event.inner.inner.length ∧
    g'.examples = g.examples ++ [rec] := by
  unfold LogGroup.add_example at h
  by_cases hemp : (g.discover_variables rec).isEmpty = true
  · rw [if_pos hemp] at h
    obtain rfl : _ = g' := Option.some.inj h
    exact ⟨rfl, rfl, rfl, rfl⟩
  · rw [if_neg hemp] at h
    obtain ⟨hid, hex, huid, hlen, _⟩ := update_variables_facts _ _ g' h
    exact ⟨hid, huid, hlen, hex⟩

/-- C5: generalization is monotone.  After `add_example`, every
pre-existing entry of `variables` is preserved verbatim; every
position `discover_variables` emits was not yet in `variables`
(never re-emitted), carries a `Wildcard`, and afterwards is recorded
in `variables` with the template token at that position overwritten
by the `Wildcard`. -/
theorem add_example_generalization (g : LogGroup) (rec : Record) (g' : LogGroup)
    (h : g.add_example rec = some g') :
    (∀ p t, mapGet g.vars p = some t → mapGet g'.vars p = some t) ∧
    (∀ p t, (p, t) ∈ g.discover_variables rec →
      mapGet g.vars p = none ∧ t = Token.Wildcard ∧
      mapGet g'.vars p = some Token.Wildcard ∧
      (g'.event.inner.inner.get? p).map (fun e => e.2) = some Token.Wildcard) := by
  unfold LogGroup.add_example at h
  by_cases hemp : (g.discover_variables rec).isEmpty = true
  · rw [if_pos hemp] at h
    obtain rfl : _ = g' := Option.some.inj h
    refine ⟨fun p t ht => ht, fun p t hmem => ?_⟩
    rw [List.isEmpty_iff] at hemp
    rw [hemp] at hmem
    simp at hmem
  · rw [if_neg hemp] at h
    have hpw : List.Pairwise (fun x y : Nat × Token => x.1 < y.1)
        (g.discover_variables rec) := discoverGo_keys_lt g.vars 0 _ _
    constructor
    · intro p t ht
      have hnotin : p ∉ (g.discover_variables rec).map Prod.fst := by
        intro hin
        obtain ⟨y, hy, hy1⟩ := List.mem_map.mp hin
        have := (discover_variables_bounds g rec y.1 y.2 (by simpa using hy)).2.1
        rw [hy1] at this
        rw [this] at ht
        exact Option.noConfusion ht
      obtain ⟨_, _, _, _, huntouched⟩ := update_variables_facts _ _ g' h
      exact (huntouched p hnotin).1 ▸ ht
    · intro p t hmem
      obtain ⟨hlt, hnone, rfl⟩ := discover_variables_bounds g rec p t hmem
      obtain ⟨hv, hg⟩ := update_variables_applied _ _ g' hpw h p Token.Wildcard hmem
      exact ⟨hnone, rfl, hv, hg⟩

/-- Witness for C5 at a concrete input. -/
theorem add_example_generalization_witness :
    c5Group.add_example c5Example = some c5Result ∧
    (1, Token.Wildcard) ∈ c5Group.discover_variables c5Example ∧
    mapGet c5Result.vars 1 = some Token.Wildcard ∧
    (c5Result.event.inner.inner.get? 1).map (fun e => e.2) = some Token.Wildcard := by
  have h : c5Group.add_example c5Example = some c5Result := by decide
  refine ⟨h, by decide, ?_, ?_⟩
  · exact ((add_example_generalization c5Group c5Example c5Result h).2 1
      Token.Wildcard (by decide)).2.2.1
  · exact ((add_example_generalization c5Group c5Example c5Result h).2 1
      Token.Wildcard (by decide)).2.2.2

theorem atomsF_map : ∀ (fuel : Nat) (t : List Char) (i : Nat),
    (atomsF fuel t i).map Prod.snd = splitWsGo fuel t
  | 0, _, _ => rfl
  | _ + 1, [], _ => rfl
  | fuel + 1, c :: cs, i => by
    unfold atomsF splitWsGo
    by_cases h : isAsciiWs c = true
    · rw [if_pos h, if_pos h]
      exact atomsF_map fuel cs (i + 1)
    · rw [if_neg h, if_neg h, List.map_cons, atomsF_map fuel _ _]

theorem chainOK_mono {s : List Char} {b b' : Nat} (h : b' ≤ b) :
    ∀ {l : List (Nat × List Char)}, chainOK s b l → chainOK s b' l
  | [], _ => trivial
  | (p, w) :: rest, hc => by
    obtain ⟨h1, h2, h3, h4, h5, h6⟩ := hc
    exact ⟨le_trans h h1, h2, h3, h4, h5, h6⟩

theorem dropWhile_head_false (p : α → Bool) :
    ∀ (l : List α) (x : α) (xs : List α), l.dropWhile p = x :: xs → p x = false
  | [], x, xs => by intro h; simp [List.dropWhile] at h
  | c :: cs, x, xs => by
    intro h
    rw [List.dropWhile_cons] at h
    by_cases hc : p c = true
    · rw [if_pos hc] at h
      exact dropWhile_head_false p cs x xs h
    · rw [if_neg hc] at h
      injection h with h1 _
      subst h1
      cases hb : p c
      · rfl
      · exact absurd hb hc

theorem drop_length_takeWhile {α : Type} (p : α → Bool) :
    ∀ l : List α, l.drop (l.takeWhile p).length = l.dropWhile p
  | [] => rfl
  | c :: cs => by
    rw [List.takeWhile_cons, List.dropWhile_cons]
    by_cases hc : p c = true
    · rw [if_pos hc, if_pos hc, List.length_cons, List.drop_succ_cons]
      exact drop_length_takeWhile p cs
    · rw [if_neg hc, if_neg hc]
      rfl

theorem atomsF_chainOK (s : List Char) :
    ∀ (fuel : Nat) (t : List Char) (i : Nat), t.length ≤ fuel → t = s.drop i →
      (i = 0 ∨ (∃ c, s.get? (i - 1) = some c ∧ isAsciiWs c = true) ∨
        (∃ c rest, t = c :: rest ∧ isAsciiWs c = true)) →
      chainOK s i (atomsF fuel t i)
  | 0, t, i => by
    intro hlen _ _
    obtain rfl : t = [] := List.length_eq_zero.mp (Nat.le_zero.mp hlen)
    trivial
  | fuel + 1, [], i => by
    intro _ _ _
    trivial
  | fuel + 1, c :: cs, i => by
    intro hlen ht hbdy
    unfold atomsF
    by_cases hc : isAsciiWs c = true
    · rw [if_pos hc]
      refine chainOK_mono (Nat.le_succ i) ?_
      refine atomsF_chainOK s fuel cs (i + 1) (by simpa using hlen) ?_ ?_
      · have : s.drop (i + 1) = (s.drop i).drop 1 := by
          rw [List.drop_drop, Nat.add_comm]
        rw [this, ← ht, List.drop_one, List.tail_cons]
      · right; left
        refine ⟨c, ?_, hc⟩
        have : s.get? (i + 0) = (s.drop i).get? 0 := (List.get?_drop s i 0).symm
        simpa [← ht] using this
    · rw [if_neg hc]
      have hcfalse : isAsciiWs c = false := by
        cases hb : isAsciiWs c
        · rfl
        · exact absurd hb hc
      set w := c :: cs.takeWhile (fun d => !isAsciiWs d) with hw
      refine ⟨le_refl i, by simp [hw], ?_, ?_, ?_, ?_⟩
      · intro x hx
        rw [hw] at hx
        rcases List.mem_cons.mp hx with rfl | hx'
        · exact hcfalse
        · have := List.mem_takeWhile_imp hx'
          simpa using this
      · rw [← ht, hw]
        exact ⟨cs.dropWhile (fun d => !isAsciiWs d), by
          rw [List.cons_append, List.takeWhile_append_dropWhile]⟩
      · rcases hbdy with h0 | hm | ⟨c', rest', heq, hws⟩
        · exact Or.inl h0
        · exact Or.inr hm
        · obtain ⟨rfl, _⟩ := List.cons.injEq .. |>.mp heq
          exact absurd hws (by rw [hcfalse]; simp)
      · by_cases hnil : cs.dropWhile (fun d => !isAsciiWs d) = []
        · rw [hnil]
          cases fuel <;> trivial
        · refine atomsF_chainOK s fuel (cs.dropWhile (fun d => !isAsciiWs d))
            (i + w.length) ?_ ?_ ?_
          · calc (cs.dropWhile (fun d => !isAsciiWs d)).length
                ≤ cs.length := (List.dropWhile_sublist _).length_le
              _ ≤ fuel := by simpa using hlen
          · have h1 : s.drop (i + w.length) = (s.drop i).drop w.length := by
              rw [List.drop_drop, Nat.add_comm]
            rw [h1, ← ht, hw, List.length_cons, List.drop_succ_cons]
            exact (drop_length_takeWhile _ cs).symm
          · obtain ⟨x, xs, hxs⟩ := List.exists_cons_of_ne_nil hnil
            right; right
            refine ⟨x, xs, hxs, ?_⟩
            have := dropWhile_head_false _ cs x xs hxs
            simpa using this

theorem matchGo_ge (w : List Char) :
    ∀ (fuel : Nat) (t : List Char) (i j : Nat), j ∈ matchGo w fuel t i → i ≤ j
  | 0, _, _, _ => by intro h; simp [matchGo] at h
  | _ + 1, [], _, _ => by intro h; simp [matchGo] at h
  | fuel + 1, c :: cs, i, j => by
    intro h
    unfold matchGo at h
    by_cases hpre : w.isPrefixOf (c :: cs) = true
    · rw [if_pos hpre] at h
      rcases List.mem_cons.mp h with rfl | hmem
      · exact le_refl _
      · have := matchGo_ge w fuel _ _ _ hmem
        omega
    · rw [if_neg hpre] at h
      have := matchGo_ge w fuel _ _ _ h
      omega

theorem matchGo_sorted (w : List Char) :
    ∀ (fuel : Nat) (t : List Char) (i : Nat),
      List.Pairwise (· ≤ ·) (matchGo w fuel t i)
  | 0, _, _ => by simp [matchGo]
  | _ + 1, [], _ => by simp [matchGo]
  | fuel + 1, c :: cs, i => by
    unfold matchGo
    by_cases hpre : w.isPrefixOf (c :: cs) = true
    · rw [if_pos hpre]
      refine List.Pairwise.cons ?_ (matchGo_sorted w fuel _ _)
      intro j hj
      have := matchGo_ge w fuel _ _ j hj
      omega
    · rw [if_neg hpre]
      exact matchGo_sorted w fuel _ _

/-- Completeness of the non-overlapping scan: if the pattern occurs at
`p` and no occurrence straddles `p`, the scan started at or before `p`
reports `p`. -/
theorem matchGo_complete {w : List Char} (hw : w ≠ [])
    {s : List Char} {p : Nat} (hocc : List.IsPrefix w (s.drop p))
    (hnostr : ∀ q, q < p → List.IsPrefix w (s.drop q) → q + w.length ≤ p) :
    ∀ (fuel : Nat) (t : List Char) (i : Nat), t = s.drop i → t.length ≤ fuel →
      i ≤ p → p ∈ matchGo w fuel t i
  | 0, t, i => by
    intro ht hlen hip
    obtain rfl : t = [] := List.length_eq_zero.mp (Nat.le_zero.mp hlen)
    exfalso
    obtain ⟨c, w', rfl⟩ := List.exists_cons_of_ne_nil hw
    obtain ⟨tl, htl⟩ := hocc
    have hplen : p < s.length := by
      by_contra hge
      rw [List.drop_eq_nil_of_le (by omega)] at htl
      simp at htl
    have : s.length ≤ i := by
      have := congrArg List.length ht.symm
      simp [List.length_drop] at this
      omega
    omega
  | fuel + 1, [], i => by
    intro ht hlen hip
    exfalso
    obtain ⟨c, w', rfl⟩ := List.exists_cons_of_ne_nil hw
    obtain ⟨tl, htl⟩ := hocc
    have hplen : p < s.length := by
      by_contra hge
      rw [List.drop_eq_nil_of_le (by omega)] at htl
      simp at htl
    have : s.length ≤ i := by
      have := congrArg List.length ht.symm
      simp [List.length_drop] at this
      omega
    omega
  | fuel + 1, c :: cs, i => by
    intro ht hlen hip
    unfold matchGo
    by_cases hpre : w.isPrefixOf (c :: cs) = true
    · rw [if_pos hpre]
      by_cases hipeq : i = p
      · subst hipeq
        exact List.mem_cons_self _ _
      · have hlt : i < p := by omega
        have hocci : List.IsPrefix w (s.drop i) := by
          rw [← ht]
          exact List.isPrefixOf_iff_prefix.mp hpre
        have hstep : i + w.length ≤ p := hnostr i hlt hocci
        have hwpos : 0 < w.length := List.length_pos.mpr hw
        refine List.mem_cons_of_mem _ ?_
        refine matchGo_complete hw hocc hnostr fuel _ (i + w.length) ?_ ?_ (by omega)
        · have h1 : s.drop (i + w.length) = (s.drop i).drop w.length := by
            rw [List.drop_drop, Nat.add_comm]
          rw [h1, ← ht]
          have : (c :: cs).drop w.length = cs.drop (w.length - 1) := by
            obtain ⟨m, hm⟩ : ∃ m, w.length = m + 1 := ⟨w.length - 1, by omega⟩
            rw [hm, List.drop_succ_cons]
            congr 1
          rw [this]
        · have h2 : (cs.drop (w.length - 1)).length = cs.length - (w.length - 1) :=
            List.length_drop _ _
          have h3 : (c :: cs).length ≤ fuel + 1 := hlen
          simp at h3
          omega
    · rw [if_neg hpre]
      have hipne : i ≠ p := by
        intro hipeq
        subst hipeq
        rw [← ht] at hocc
        exact hpre (List.isPrefixOf_iff_prefix.mpr hocc)
      refine matchGo_complete hw hocc hnostr fuel cs (i + 1) ?_ ?_ (by omega)
      · have h1 : s.drop (i + 1) = (s.drop i).drop 1 := by
          rw [List.drop_drop, Nat.add_comm]
        rw [h1, ← ht, List.drop_one, List.tail_cons]
      · have : (c :: cs).length ≤ fuel + 1 := hlen
        simp at this
        omega

theorem find?_sorted_le {l : List Nat} {p prog : Nat} (hmem : p ∈ l) (hp : prog ≤ p)
    (hsort : List.Pairwise (· ≤ ·) l) :
    ∃ i, l.find? (fun j => decide (prog ≤ j)) = some i ∧ prog ≤ i ∧ i ≤ p := by
  induction l with
  | nil => simp at hmem
  | cons x rest ih =>
    by_cases hx : prog ≤ x
    · refine ⟨x, ?_, hx, ?_⟩
      · rw [List.find?_cons_of_pos _ (by simpa using hx)]
      · rcases List.mem_cons.mp hmem with rfl | hmem'
        · exact le_refl _
        · exact (List.pairwise_cons.mp hsort).1 p hmem'
    · have hpx : p ≠ x := by omega
      have hmem' : p ∈ rest := by
        rcases List.mem_cons.mp hmem with rfl | hmem'
        · exact absurd rfl hpx
        · exact hmem'
      obtain ⟨i, hfind, hpi, hip⟩ := ih hmem' (List.pairwise_cons.mp hsort).2
      exact ⟨i, by rw [List.find?_cons_of_neg _ (by simpa using hx)]; exact hfind,
        hpi, hip⟩

/-- No occurrence of a whitespace-free atom can straddle a position
that sits at the line start or right after a whitespace character. -/
theorem no_straddle {s w : List Char} {p : Nat} (_hw : w ≠ [])
    (hnw : ∀ c ∈ w, isAsciiWs c = false)
    (hbdy : p = 0 ∨ ∃ c, s.get? (p - 1) = some c ∧ isAsciiWs c = true) :
    ∀ q, q < p → List.IsPrefix w (s.drop q) → q + w.length ≤ p := by
  intro q hq hpre
  by_contra hcon
  push_neg at hcon
  rcases hbdy with rfl | ⟨c, hc, hws⟩
  · omega
  · have hp1 : 1 ≤ p := by omega
    obtain ⟨tl, htl⟩ := hpre
    have hk : p - 1 - q < w.length := by omega
    have h1 : (w ++ tl).get? (p - 1 - q) = w.get? (p - 1 - q) :=
      List.get?_append hk
    have h2 : (s.drop q).get? (p - 1 - q) = s.get? (q + (p - 1 - q)) :=
      List.get?_drop s q (p - 1 - q)
    have h3 : q + (p - 1 - q) = p - 1 := by omega
    have h4 : w.get? (p - 1 - q) = some c := by
      rw [← h1, htl, h2, h3, hc]
    have h5 : c ∈ w := List.get?_mem h4
    rw [hnw c h5] at hws
    exact Bool.noConfusion hws

/-- The scan of `from_unicode_line` never drops an atom: over a
`chainOK` atom list it produces exactly one token per atom. -/
theorem fromLineGo_length (s : List Char) :
    ∀ (l : List (Nat × List Char)) (prog : Nat), chainOK s prog l →
      (fromLineGo s (l.map Prod.snd) prog).length = l.length
  | [], prog => fun _ => rfl
  | (p, w) :: rest, prog => by
    intro hchain
    obtain ⟨hbound, hw, hnwchars, hocc, hbdy, hrest⟩ := hchain
    have hnostr := no_straddle hw hnwchars hbdy
    have hmi : matchIndices w s = matchGo w s.length s 0 := by
      unfold matchIndices
      rw [if_neg (by simpa using hw)]
    have hp : p ∈ matchIndices w s := by
      rw [hmi]
      exact matchGo_complete hw hocc hnostr s.length s 0 (by rw [List.drop_zero])
        (le_refl _) (Nat.zero_le _)
    have hsorted : List.Pairwise (· ≤ ·) (matchIndices w s) := by
      rw [hmi]
      exact matchGo_sorted w s.length s 0
    obtain ⟨i, hfind, hpi, hip⟩ := find?_sorted_le hp hbound hsorted
    rw [List.map_cons]
    unfold fromLineGo
    rw [hfind]
    rw [List.length_cons, fromLineGo_length s rest (i + w.length)
      (chainOK_mono (by omega) hrest), List.length_cons]

/-- C9: length preservation.  For every input line, the record built
from it has exactly one token per whitespace-separated atom: the
offset scan always finds each atom at or after the current progress
point, so no atom is dropped or duplicated. -/
theorem record_len_eq_atom_count (uid : Nat) (line : List Char) :
    (Record.new uid line).len = (splitAsciiWhitespace line).length := by
  unfold Record.new Record.len TokenStream.len TokenStream.from_unicode_line
  have hchain : chainOK line 0 (atomsF line.length line 0) :=
    atomsF_chainOK line line.length line 0 (le_refl _) (List.drop_zero line).symm
      (Or.inl rfl)
  calc (fromLineGo line (splitAsciiWhitespace line) 0).length
      = (fromLineGo line ((atomsF line.length line 0).map Prod.snd) 0).length := by
        rw [atomsF_map]
        rfl
    _ = (atomsF line.length line 0).length := fromLineGo_length line _ 0 hchain
    _ = ((atomsF line.length line 0).map Prod.snd).length := (List.length_map _ _).symm
    _ = (splitAsciiWhitespace line).length := by rw [atomsF_map]; rfl

theorem fromLineGo_shape (s : List Char) :
    ∀ (l : List (List Char)) (prog : Nat) (e : Offset × Token),
      e ∈ fromLineGo s l prog → ∃ w, e.2 = Token.Value (TypedToken.String w)
  | [], _, e => by intro h; simp [fromLineGo] at h
  | w :: ws, prog, e => by
    intro h
    unfold fromLineGo at h
    cases hfind : (matchIndices w s).find? (fun i => decide (prog ≤ i)) with
    | none =>
      rw [hfind] at h
      exact fromLineGo_shape s ws prog e h
    | some i =>
      rw [hfind] at h
      rcases List.mem_cons.mp h with rfl | hmem
      · exact ⟨w, rfl⟩
      · exact fromLineGo_shape s ws (i + w.length) e hmem

theorem record_first_head (uid : Nat) (line : List Char) (K : Sym)
    (h : (Record.new uid line).first = some K) :
    ((Record.new uid line).inner.inner.get? 0).map (fun e => e.2) =
      some (Token.Value (TypedToken.String K)) := by
  unfold Record.first TokenStream.first at h
  cases hh : (Record.new uid line).inner.inner.get? 0 with
  | none => rw [hh] at h; simp at h
  | some e =>
    rw [hh] at h
    obtain ⟨w, hw⟩ := fromLineGo_shape line _ 0 e (List.get?_mem hh)
    simp only [Option.map_some'] at h ⊢
    rw [hw] at h ⊢
    simp only [tokenToSym, Option.some.injEq] at h
    rw [h]

theorem splitWs_nonempty :
    ∀ (fuel : Nat) (t : List Char), t.length ≤ fuel →
      (∃ c ∈ t, isAsciiWs c = false) → splitWsGo fuel t ≠ []
  | 0, t => by
    intro hlen h
    obtain rfl : t = [] := List.length_eq_zero.mp (Nat.le_zero.mp hlen)
    simp at h
  | _ + 1, [] => by
    intro _ h
    simp at h
  | fuel + 1, c :: cs => by
    intro hlen ⟨x, hx, hxws⟩
    unfold splitWsGo
    by_cases hc : isAsciiWs c = true
    · rw [if_pos hc]
      refine splitWs_nonempty fuel cs (by simpa using hlen) ⟨x, ?_, hxws⟩
      rcases List.mem_cons.mp hx with rfl | hx'
      · rw [hc] at hxws; exact Bool.noConfusion hxws
      · exact hx'
    · rw [if_neg hc]
      simp

theorem record_first_isSome (uid : Nat) (line : List Char)
    (h : ∃ c ∈ line, isAsciiWs c = false) :
    ∃ K, (Record.new uid line).first = some K := by
  have hlen := record_len_eq_atom_count uid line
  have hne : splitAsciiWhitespace line ≠ [] :=
    splitWs_nonempty line.length line (le_refl _) h
  have hpos : 0 < (Record.new uid line).inner.inner.length := by
    have : 0 < (splitAsciiWhitespace line).length := List.length_pos.mpr hne
    unfold Record.len TokenStream.len at hlen
    omega
  cases hh : (Record.new uid line).inner.inner.get? 0 with
  | none =>
    have := List.get?_eq_none.mp hh
    omega
  | some e =>
    exact ⟨tokenToSym e.2, by
      unfold Record.first TokenStream.first
      rw [hh]
      rfl⟩

theorem token_beq_value_string (w : Sym) :
    Token.beq (.Value (.String w)) (.Value (.String w)) = true := by
  simp [Token.beq, TypedToken.beq]

/-- When the template and the candidate agree at a position under the
derived equality, `add_example` leaves the template token at that
position unchanged. -/
theorem add_example_head (g : LogGroup) (rec : Record) (g' : LogGroup)
    (h : g.add_example rec = some g')
    (e0 c0 : Token)
    (hg0 : (g.event.inner.inner.get? 0).map (fun e => e.2) = some e0)
    (hr0 : (rec.inner.inner.get? 0).map (fun e => e.2) = some c0)
    (hbeq : Token.beq e0 c0 = true) :
    (g'.event.inner.inner.get? 0).map (fun e => e.2) = some e0 := by
  have hzero : (0 : Nat) ∉ (g.discover_variables rec).map Prod.fst := by
    intro hin
    obtain ⟨y, hy, hy1⟩ := List.mem_map.mp hin
    obtain ⟨_, _, _, e, c, he, hc, hbeqf⟩ :=
      discoverGo_mem g.vars 0 g.event.tokens rec.tokens y.1 y.2 (by simpa using hy)
    rw [hy1] at he hc
    have he' : e = e0 := by
      have : g.event.tokens.get? 0 = (g.event.inner.inner.get? 0).map (fun e => e.2) := by
        simp [Record.tokens, List.get?_map]
      rw [this, hg0] at he
      exact (Option.some.inj he).symm
    have hc' : c = c0 := by
      have : rec.tokens.get? 0 = (rec.inner.inner.get? 0).map (fun e => e.2) := by
        simp [Record.tokens, List.get?_map]
      rw [this, hr0] at hc
      exact (Option.some.inj hc).symm
    rw [he', hc', hbeq] at hbeqf
    exact Bool.noConfusion hbeqf
  unfold LogGroup.add_example at h
  by_cases hemp : (g.discover_variables rec).isEmpty = true
  · rw [if_pos hemp] at h
    obtain rfl : _ = g' := Option.some.inj h
    exact hg0
  · rw [if_neg hemp] at h
    obtain ⟨_, _, _, _, huntouched⟩ := update_variables_facts _ _ g' h
    rw [(huntouched 0 hzero).2]
    exact hg0

theorem bucketGet_update_self (s : SimpleDrain) (L : Nat) (K : Sym)
    (l2 : List (Sym × List LogGroup)) (v : List LogGroup) :
    bucketGet { s with base_layer := mapInsert s.base_layer L (mapInsert l2 K v) } L K =
      some v := by
  unfold bucketGet
  rw [mapGet_insert_self]
  simp [mapGet_insert_self]

theorem bucketGet_update_other (s : SimpleDrain) (L : Nat) (K : Sym)
    (l2 : List (Sym × List LogGroup)) (v : List LogGroup) (L' : Nat) (K' : Sym)
    (hl2 : mapGet s.base_layer L = some l2) (hne : ¬(L' = L ∧ K' = K)) :
    bucketGet { s with base_layer := mapInsert s.base_layer L (mapInsert l2 K v) } L' K' =
      bucketGet s L' K' := by
  unfold bucketGet
  by_cases hL : L' = L
  · subst hL
    have hK : K' ≠ K := fun a => hne ⟨rfl, a⟩
    rw [mapGet_insert_self]
    rw [hl2]
    simp [mapGet_insert_ne _ _ _ _ hK]
  · rw [mapGet_insert_ne _ _ _ _ hL]

theorem bucketGet_fresh_map (s : SimpleDrain) (L : Nat)
    (l2 : List (Sym × List LogGroup)) (L' : Nat) (K' : Sym) :
    bucketGet { s with base_layer := mapInsert s.base_layer L l2 } L' K' =
      if L' = L then mapGet l2 K' else bucketGet s L' K' := by
  unfold bucketGet
  by_cases hL : L' = L
  · subst hL
    rw [if_pos rfl, mapGet_insert_self]
    rfl
  · rw [if_neg hL, mapGet_insert_ne _ _ _ _ hL]

theorem record_nonempty_of_first {uid : Nat} {line : List Char} {K : Sym}
    (h : (Record.new uid line).first = some K) : line.isEmpty = false := by
  cases line with
  | nil =>
    have h0 : (Record.new uid ([] : List Char)).first = none := rfl
    rw [h0] at h
    exact Option.noConfusion h
  | cons c cs => rfl

/-- C3: the absorb-or-create decision.  When the `(length, first)`
bucket already holds groups, the line is absorbed into the group the
scoring fold selected (via `add_example`, returning `Ok(false)`)
exactly when the exact rational `best_score / L` strictly exceeds the
threshold rational; otherwise a fresh `LogGroup` is appended to that
same bucket and `Ok(true)` is returned. -/
theorem process_line_threshold_decision (s : SimpleDrain) (uid : Nat) (line : List Char)
    (rec : Record) (K : Sym) (l2 : List (Sym × List LogGroup)) (gs : List LogGroup)
    (hrec : rec = Record.new uid line)
    (hK : rec.first = some K)
    (hl2 : mapGet s.base_layer rec.len = some l2)
    (hgs : mapGet l2 K = some gs)
    (_hne : gs ≠ [])
    (hthr : 0 ≤ s.threshold) :
    (((bestOf rec gs).1 : ℚ) / (rec.len : ℚ) > s.threshold →
      ∃ g g', gs.get? (bestOf rec gs).2 = some g ∧ g.add_example rec = some g' ∧
        s.process_line uid line = .ok
          ({ s with base_layer := (mapInsert s.base_layer rec.len
              (mapInsert l2 K (gs.set (bestOf rec gs).2 g'))) }, false)) ∧
    (¬(((bestOf rec gs).1 : ℚ) / (rec.len : ℚ) > s.threshold) →
      s.process_line uid line = .ok
        ({ s with base_layer := (mapInsert s.base_layer rec.len
            (mapInsert l2 K (gs ++ [LogGroup.new rec]))) }, true)) := by
  subst hrec
  have hempty : line.isEmpty = false := record_nonempty_of_first hK
  unfold SimpleDrain.process_line
  rw [if_neg (by rw [hempty]; simp)]
  dsimp only
  rw [hK]
  dsimp only
  rw [hl2]
  dsimp only
  rw [hgs]
  dsimp only
  constructor
  · intro habs
    have hpos : 0 < (bestOf (Record.new uid line) gs).1 := by
      by_contra hz
      have h0 : (bestOf (Record.new uid line) gs).1 = 0 := by omega
      rw [h0] at habs
      simp only [Nat.cast_zero, zero_div] at habs
      exact absurd hthr (not_le.mpr habs)
    obtain ⟨g, hget, _, _, _⟩ := bestOf_pos_spec (Record.new uid line) gs hpos
    obtain ⟨g', hg'⟩ := add_example_isSome g (Record.new uid line)
    rw [if_pos habs, hget]
    dsimp only
    rw [hg']
    exact ⟨g, g', rfl, hg', rfl⟩
  · intro hnabs
    rw [if_neg hnabs]

/-- C8: ties go to the earliest-inserted group.  Under absorption, the
group that receives the example sits at the fold's index: its score
equals the best score, no group scores higher, and every
earlier-inserted group scores strictly lower — so among equal best
scorers the earliest one wins and is the one mutated. -/
theorem process_line_tie_break (s : SimpleDrain) (uid : Nat) (line : List Char)
    (rec : Record) (K : Sym) (l2 : List (Sym × List LogGroup)) (gs : List LogGroup)
    (hrec : rec = Record.new uid line)
    (hK : rec.first = some K)
    (hl2 : mapGet s.base_layer rec.len = some l2)
    (hgs : mapGet l2 K = some gs)
    (hthr : 0 ≤ s.threshold)
    (habs : ((bestOf rec gs).1 : ℚ) / (rec.len : ℚ) > s.threshold) :
    ∃ g g', gs.get? (bestOf rec gs).2 = some g ∧
      rec.calc_sim_score g.event = (bestOf rec gs).1 ∧
      (∀ j gj, gs.get? j = some gj →
        rec.calc_sim_score gj.event ≤ (bestOf rec gs).1) ∧
      (∀ k gk, k < (bestOf rec gs).2 → gs.get? k = some gk →
        rec.calc_sim_score gk.event < (bestOf rec gs).1) ∧
      g.add_example rec = some g' ∧
      s.process_line uid line = .ok
        ({ s with base_layer := (mapInsert s.base_layer rec.len
            (mapInsert l2 K (gs.set (bestOf rec gs).2 g'))) }, false) := by
  subst hrec
  have hpos : 0 < (bestOf (Record.new uid line) gs).1 := by
    by_contra hz
    have h0 : (bestOf (Record.new uid line) gs).1 = 0 := by omega
    rw [h0] at habs
    simp only [Nat.cast_zero, zero_div] at habs
    exact absurd hthr (not_le.mpr habs)
  obtain ⟨g, hget, hscore, hle, hlt⟩ := bestOf_pos_spec (Record.new uid line) gs hpos
  have hne : gs ≠ [] := by
    intro hnil
    rw [hnil] at hget
    simp at hget
  obtain ⟨habsorb, _⟩ := process_line_threshold_decision s uid line _ K l2 gs rfl hK
    hl2 hgs hne hthr
  obtain ⟨g0, g', hget0, hg', hres⟩ := habsorb habs
  obtain rfl : g0 = g := by
    rw [hget] at hget0
    exact (Option.some.inj hget0).symm
  exact ⟨g0, g', hget, hscore.symm, hle, hlt, hg', hres⟩

/-- C1 (refuting the claim as stated): a non-empty line consisting
only of whitespace yields a record with no tokens, so the
`.expect("records have first tokens")` in `process_line` panics. -/
theorem process_line_whitespace_panics :
    (SimpleDrain.new []).process_line 0 [' '] = Outcome.panicked := rfl

/-- C1 (amended): on every line containing at least one
non-whitespace character, `process_line` returns `Ok` — no panic and
no error — provided the threshold is non-negative (it always is:
thresholds are built from `u64` numerators and denominators, and the
initial threshold is 1/2). -/
theorem process_line_ok_of_nonws (s : SimpleDrain) (uid : Nat) (line : List Char)
    (hthr : 0 ≤ s.threshold) (hc : ∃ c ∈ line, isAsciiWs c = false) :
    ∃ r, s.process_line uid line = .ok r := by
  obtain ⟨K, hK⟩ := record_first_isSome uid line hc
  have hempty : line.isEmpty = false := record_nonempty_of_first hK
  unfold SimpleDrain.process_line
  rw [if_neg (by rw [hempty]; simp)]
  dsimp only
  rw [hK]
  dsimp only
  cases hl2 : mapGet s.base_layer (Record.new uid line).len with
  | none => exact ⟨_, rfl⟩
  | some l2 =>
    dsimp only
    cases hgs : mapGet l2 K with
    | none => exact ⟨_, rfl⟩
    | some gs =>
      dsimp only
      by_cases habs : ((bestOf (Record.new uid line) gs).1 : ℚ) /
          ((Record.new uid line).len : ℚ) > s.threshold
      · have hpos : 0 < (bestOf (Record.new uid line) gs).1 := by
          by_contra hz
          have h0 : (bestOf (Record.new uid line) gs).1 = 0 := by omega
          rw [h0] at habs
          simp only [Nat.cast_zero, zero_div] at habs
          exact absurd hthr (not_le.mpr habs)
        obtain ⟨g, hget, _, _, _⟩ := bestOf_pos_spec _ gs hpos
        obtain ⟨g', hg'⟩ := add_example_isSome g (Record.new uid line)
        rw [if_pos habs, hget]
        dsimp only
        rw [hg']
        exact ⟨_, rfl⟩
      · rw [if_neg habs]
        exact ⟨_, rfl⟩

/-- Witness for the amended C1 at a concrete input. -/
theorem process_line_ok_of_nonws_witness :
    (0 ≤ (SimpleDrain.new []).threshold) ∧
    ∃ r, (SimpleDrain.new []).process_line 0 ['a'] = .ok r := by
  have hthr : (0 : ℚ) ≤ (SimpleDrain.new []).threshold := by
    norm_num [SimpleDrain.new]
  exact ⟨hthr, process_line_ok_of_nonws (SimpleDrain.new []) 0 ['a'] hthr
    ⟨'a', by decide⟩⟩

/-- Witness for C3 at a concrete input. -/
theorem process_line_threshold_decision_witness :
    ((Record.new 1 c3Line).first = some ['a']) ∧
    (mapGet c3State.base_layer (Record.new 1 c3Line).len = some [(['a'], [c5Group])]) ∧
    (mapGet [(['a'], [c5Group])] ['a'] = some [c5Group]) ∧
    (((bestOf (Record.new 1 c3Line) [c5Group]).1 : ℚ) / ((Record.new 1 c3Line).len : ℚ) >
      c3State.threshold) ∧
    ∃ g g', [c5Group].get? (bestOf (Record.new 1 c3Line) [c5Group]).2 = some g ∧
      g.add_example (Record.new 1 c3Line) = some g' ∧
      c3State.process_line 1 c3Line = .ok
        ({ c3State with base_layer := (mapInsert c3State.base_layer (Record.new 1 c3Line).len
            (mapInsert [(['a'], [c5Group])] ['a']
              ([c5Group].set (bestOf (Record.new 1 c3Line) [c5Group]).2 g'))) }, false) := by
  have hthr : (0 : ℚ) ≤ c3State.threshold := by norm_num [c3State]
  have habs : ((bestOf (Record.new 1 c3Line) [c5Group]).1 : ℚ) /
      ((Record.new 1 c3Line).len : ℚ) > c3State.threshold := by
    have h1 : (bestOf (Record.new 1 c3Line) [c5Group]).1 = 2 := by decide
    have h2 : (Record.new 1 c3Line).len = 2 := by decide
    rw [h1, h2]
    norm_num [c3State]
  refine ⟨by decide, by decide, by decide, habs, ?_⟩
  exact (process_line_threshold_decision c3State 1 c3Line (Record.new 1 c3Line) ['a']
    [(['a'], [c5Group])] [c5Group] rfl (by decide) (by decide) (by decide)
    (by decide) hthr).1 habs

/-- Witness for C8 at a concrete input: both groups tie with score 1,
and the earliest-inserted one (index 0) receives the example. -/
theorem process_line_tie_break_witness :
    (Record.calc_sim_score (Record.new 3 c8Line) c8GroupA.event =
      Record.calc_sim_score (Record.new 3 c8Line) c8GroupB.event) ∧
    ((bestOf (Record.new 3 c8Line) [c8GroupA, c8GroupB]).2 = 0) ∧
    (((bestOf (Record.new 3 c8Line) [c8GroupA, c8GroupB]).1 : ℚ) /
      ((Record.new 3 c8Line).len : ℚ) > c8State.threshold) ∧
    ∃ g g', [c8GroupA, c8GroupB].get?
        (bestOf (Record.new 3 c8Line) [c8GroupA, c8GroupB]).2 = some g ∧
      Record.calc_sim_score (Record.new 3 c8Line) g.event =
        (bestOf (Record.new 3 c8Line) [c8GroupA, c8GroupB]).1 ∧
      (∀ j gj, [c8GroupA, c8GroupB].get? j = some gj →
        Record.calc_sim_score (Record.new 3 c8Line) gj.event ≤
          (bestOf (Record.new 3 c8Line) [c8GroupA, c8GroupB]).1) ∧
      (∀ k gk, k < (bestOf (Record.new 3 c8Line) [c8GroupA, c8GroupB]).2 →
        [c8GroupA, c8GroupB].get? k = some gk →
        Record.calc_sim_score (Record.new 3 c8Line) gk.event <
          (bestOf (Record.new 3 c8Line) [c8GroupA, c8GroupB]).1) ∧
      g.add_example (Record.new 3 c8Line) = some g' ∧
      c8State.process_line 3 c8Line = .ok
        ({ c8State with base_layer := (mapInsert c8State.base_layer (Record.new 3 c8Line).len
            (mapInsert [(['a'], [c8GroupA, c8GroupB])] ['a']
              ([c8GroupA, c8GroupB].set
                (bestOf (Record.new 3 c8Line) [c8GroupA, c8GroupB]).2 g'))) }, false) := by
  have hthr : (0 : ℚ) ≤ c8State.threshold := by norm_num [c8State]
  have habs : ((bestOf (Record.new 3 c8Line) [c8GroupA, c8GroupB]).1 : ℚ) /
      ((Record.new 3 c8Line).len : ℚ) > c8State.threshold := by
    have h1 : (bestOf (Record.new 3 c8Line) [c8GroupA, c8GroupB]).1 = 1 := by decide
    have h2 : (Record.new 3 c8Line).len = 2 := by decide
    rw [h1, h2]
    norm_num [c8State]
  refine ⟨by decide, by decide, habs, ?_⟩
  exact process_line_tie_break c8State 3 c8Line (Record.new 3 c8Line) ['a']
    [(['a'], [c8GroupA, c8GroupB])] [c8GroupA, c8GroupB] rfl (by decide) (by decide)
    (by decide) hthr habs

theorem event_len_eq {g' g : LogGroup}
    (h : g'.event.inner.inner.length = g.event.inner.inner.length) :
    g'.event.len = g.event.len := h

/-- C6: bucket residency is stable.  `process_line` preserves bucket
consistency (groups always sit in the bucket matching their current
`(event.len(), event.first())`, which equals the one fixed at
creation), and it never moves or reorders existing groups: every group
present before the call is still at the same position of the same
bucket afterwards, with the same id and the same template length. -/
theorem process_line_bucket_stability (s : SimpleDrain) (uid : Nat) (line : List Char)
    (s' : SimpleDrain) (b : Bool)
    (hinv : BucketInv s)
    (h : s.process_line uid line = .ok (s', b)) :
    BucketInv s' ∧
    (∀ L K gs, bucketGet s L K = some gs →
      ∃ gs', bucketGet s' L K = some gs' ∧ gs.length ≤ gs'.length ∧
        ∀ i g, gs.get? i = some g →
          ∃ g', gs'.get? i = some g' ∧ g'.id = g.id ∧ g'.event.len = g.event.len) := by
  unfold SimpleDrain.process_line at h
  split at h
  · obtain ⟨h1, h2⟩ := Prod.mk.injEq .. |>.mp (Outcome.ok.inj h)
    subst h1
    exact ⟨hinv, fun L K gs hg => ⟨gs, hg, le_refl _, fun i g hi => ⟨g, hi, rfl, rfl⟩⟩⟩
  · dsimp only at h
    split at h
    · exact Outcome.noConfusion h
    case h_2 first heqK =>
      split at h
      case h_1 second_layer heqL =>
        split at h
        case h_1 log_groups heqG =>
          have hbg : bucketGet s (Record.new uid line).len first = some log_groups := by
            unfold bucketGet
            rw [heqL]
            simpa using heqG
          split at h
          · -- absorb branch
            split at h
            · exact Outcome.noConfusion h
            case h_2 g heqget =>
              split at h
              · exact Outcome.noConfusion h
              case h_2 g' heqadd =>
                obtain ⟨h1, h2⟩ := Prod.mk.injEq .. |>.mp (Outcome.ok.inj h)
                subst h1
                have hgmem : g ∈ log_groups := List.get?_mem heqget
                obtain ⟨hglen, hghead⟩ :=
                  hinv (Record.new uid line).len first log_groups hbg g hgmem
                have hrechead := record_first_head uid line first heqK
                have hhead' : (g'.event.inner.inner.get? 0).map (fun e => e.2) =
                    some (Token.Value (TypedToken.String first)) :=
                  add_example_head g (Record.new uid line) g' heqadd
                    (Token.Value (TypedToken.String first))
                    (Token.Value (TypedToken.String first)) hghead hrechead
                    (token_beq_value_string first)
                obtain ⟨hid, _, hlen, _⟩ :=
                  add_example_facts g (Record.new uid line) g' heqadd
                have hlen' : g'.event.len = (Record.new uid line).len := by
                  rw [event_len_eq hlen]
                  exact hglen
                constructor
                · intro L K gs2 hbg2 g2 hg2
                  by_cases hLK : L = (Record.new uid line).len ∧ K = first
                  · obtain ⟨rfl, rfl⟩ := hLK
                    rw [bucketGet_update_self] at hbg2
                    obtain rfl := Option.some.inj hbg2
                    rcases List.mem_or_eq_of_mem_set hg2 with hold | rfl
                    · exact hinv _ _ _ hbg g2 hold
                    · exact ⟨hlen', hhead'⟩
                  · rw [bucketGet_update_other s _ _ second_layer _ L K heqL hLK] at hbg2
                    exact hinv L K gs2 hbg2 g2 hg2
                · intro L K gs2 hbg2
                  by_cases hLK : L = (Record.new uid line).len ∧ K = first
                  · obtain ⟨rfl, rfl⟩ := hLK
                    rw [hbg] at hbg2
                    obtain rfl := Option.some.inj hbg2
                    refine ⟨_, bucketGet_update_self s _ _ second_layer _, by
                      rw [List.length_set], ?_⟩
                    intro i g2 hi
                    by_cases hieq : i = (bestOf (Record.new uid line) log_groups).2
                    · subst hieq
                      obtain rfl : g = g2 := Option.some.inj (heqget ▸ hi)
                      have hlt := (List.get?_eq_some.mp hi).1
                      exact ⟨g', by rw [List.get?_set_eq_of_lt _ hlt], hid,
                        event_len_eq hlen⟩
                    · exact ⟨g2, by
                        rw [List.get?_set_ne _ _ (fun a => hieq a.symm)]; exact hi,
                        rfl, rfl⟩
                  · refine ⟨gs2, ?_, le_refl _, fun i g2 hi => ⟨g2, hi, rfl, rfl⟩⟩
                    rw [bucketGet_update_other s _ _ second_layer _ L K heqL hLK]
                    exact hbg2
          · -- append branch
            obtain ⟨h1, h2⟩ := Prod.mk.injEq .. |>.mp (Outcome.ok.inj h)
            subst h1
            have hrechead := record_first_head uid line first heqK
            constructor
            · intro L K gs2 hbg2 g2 hg2
              by_cases hLK : L = (Record.new uid line).len ∧ K = first
              · obtain ⟨rfl, rfl⟩ := hLK
                rw [bucketGet_update_self] at hbg2
                obtain rfl := Option.some.inj hbg2
                rcases List.mem_append.mp hg2 with hold | hnew
                · exact hinv _ _ _ hbg g2 hold
                · obtain rfl : g2 = LogGroup.new (Record.new uid line) := by
                    simpa using hnew
                  exact ⟨rfl, hrechead⟩
              · rw [bucketGet_update_other s _ _ second_layer _ L K heqL hLK] at hbg2
                exact hinv L K gs2 hbg2 g2 hg2
            · intro L K gs2 hbg2
              by_cases hLK : L = (Record.new uid line).len ∧ K = first
              · obtain ⟨rfl, rfl⟩ := hLK
                rw [hbg] at hbg2
                obtain rfl := Option.some.inj hbg2
                refine ⟨_, bucketGet_update_self s _ _ second_layer _, by
                  rw [List.length_append]; omega, ?_⟩
                intro i g2 hi
                have hlt := (List.get?_eq_some.mp hi).1
                exact ⟨g2, by rw [List.get?_append hlt]; exact hi, rfl, rfl⟩
              · refine ⟨gs2, ?_, le_refl _, fun i g2 hi => ⟨g2, hi, rfl, rfl⟩⟩
                rw [bucketGet_update_other s _ _ second_layer _ L K heqL hLK]
                exact hbg2
        case h_2 heqG =>
          -- new first-token key in an existing length map
          obtain ⟨h1, h2⟩ := Prod.mk.injEq .. |>.mp (Outcome.ok.inj h)
          subst h1
          have hrechead := record_first_head uid line first heqK
          constructor
          · intro L K gs2 hbg2 g2 hg2
            by_cases hLK : L = (Record.new uid line).len ∧ K = first
            · obtain ⟨rfl, rfl⟩ := hLK
              rw [bucketGet_update_self] at hbg2
              obtain rfl := Option.some.inj hbg2
              obtain rfl : g2 = LogGroup.new (Record.new uid line) := by simpa using hg2
              exact ⟨rfl, hrechead⟩
            · rw [bucketGet_update_other s _ _ second_layer _ L K heqL hLK] at hbg2
              exact hinv L K gs2 hbg2 g2 hg2
          · intro L K gs2 hbg2
            by_cases hLK : L = (Record.new uid line).len ∧ K = first
            · obtain ⟨rfl, rfl⟩ := hLK
              exfalso
              unfold bucketGet at hbg2
              rw [heqL] at hbg2
              simp [heqG] at hbg2
            · refine ⟨gs2, ?_, le_refl _, fun i g2 hi => ⟨g2, hi, rfl, rfl⟩⟩
              rw [bucketGet_update_other s _ _ second_layer _ L K heqL hLK]
              exact hbg2
      case h_2 heqL =>
        -- new length bucket
        obtain ⟨h1, h2⟩ := Prod.mk.injEq .. |>.mp (Outcome.ok.inj h)
        subst h1
        have hrechead := record_first_head uid line first heqK
        constructor
        · intro L K gs2 hbg2 g2 hg2
          rw [bucketGet_fresh_map] at hbg2
          by_cases hL : L = (Record.new uid line).len
          · rw [if_pos hL] at hbg2
            by_cases hK : first = K
            · subst hK
              have hgs2 : [LogGroup.new (Record.new uid line)] = gs2 := by
                simpa [mapGet] using hbg2
              subst hgs2
              obtain rfl : g2 = LogGroup.new (Record.new uid line) := by simpa using hg2
              subst hL
              exact ⟨rfl, hrechead⟩
            · exfalso
              simp [mapGet, List.find?_cons, hK] at hbg2
          · rw [if_neg hL] at hbg2
            exact hinv L K gs2 hbg2 g2 hg2
        · intro L K gs2 hbg2
          by_cases hL : L = (Record.new uid line).len
          · exfalso
            subst hL
            unfold bucketGet at hbg2
            rw [heqL] at hbg2
            simp at hbg2
          · refine ⟨gs2, ?_, le_refl _, fun i g2 hi => ⟨g2, hi, rfl, rfl⟩⟩
            rw [bucketGet_fresh_map, if_neg hL]
            exact hbg2

/-- Witness for C6 at a concrete input. -/
theorem process_line_bucket_stability_witness :
    BucketInv c6State0 ∧
    c6State0.process_line 0 ['a'] = .ok (c6State1, true) ∧
    BucketInv c6State1 := by
  have hinv : BucketInv c6State0 := by
    intro L K gs hg
    simp [c6State0, SimpleDrain.new, bucketGet, mapGet] at hg
  have h : c6State0.process_line 0 ['a'] = .ok (c6State1, true) := rfl
  exact ⟨hinv, h,
    (process_line_bucket_stability c6State0 0 ['a'] c6State1 true hinv h).1⟩

end DrainFlow
